import Mathlib

/-!
Verification of the graph construction and persistence engine of the
zig-repos-data-miner repository (src/main.py), as a shallow embedding.

The in-memory graph models a networkx DiGraph: an ordered association list of
nodes (id, attribute dict) and of edges ((src, dest), attribute dict holding
only the `relation` key).  `add_node` merges the given attributes into the
existing dict (creating the node if absent, appended at the end); `add_edge`
creates missing endpoints with an empty attribute dict and merges `relation`.
The durable store models the SQLite tables `nodes` and `edges` with
INSERT OR IGNORE semantics (primary keys (id) and (src, dest, relation)),
rows kept in insertion order.  External effects (git subprocess calls,
os.walk, open) are modelled as explicit inputs: an optional remote URL,
an optional list of log lines, a list of walk entries with per-file content
outcomes (`none` = the call raised and the code took its except branch).
-/

namespace RepoMiner

/-- The attribute dict of a networkx node as used by main.py: each of the four
keys may be absent (`none`) or present with a string value. -/
structure NodeAttrs where
  node_type : Option String
  timestamp : Option String
  author : Option String
  message : Option String
deriving DecidableEq


/-- The empty attribute dict (a node created implicitly as an edge endpoint). -/
def NodeAttrs.empty : NodeAttrs := ⟨none, none, none, none⟩


/-- Merge one attribute: a supplied keyword argument overwrites, an absent one
keeps the current value. -/
def pick (mv av : Option String) : Option String :=
  match mv with
  | some c => some c
  | none => av


/-- Merge an attribute mask into a dict, as `add_node(id, **kwargs)` does. -/
def applyMask (m a : NodeAttrs) : NodeAttrs :=
  ⟨pick m.node_type a.node_type, pick m.timestamp a.timestamp,
   pick m.author a.author, pick m.message a.message⟩


/-- The in-memory graph: ordered association lists for nodes and edges.
An edge's value is its `relation` attribute (absent in principle, always set
by this codebase's operations). -/
structure Graph where
  nodes : List (String × NodeAttrs)
  edges : List ((String × String) × Option String)
deriving DecidableEq


def Graph.empty : Graph := ⟨[], []⟩


/-- First-match lookup in an association list (dict lookup). -/
def lookupA {α β : Type} [DecidableEq α] : List (α × β) → α → Option β
  | [], _ => none
  | p :: t, a => if p.1 = a then some p.2 else lookupA t a


/-- Update every entry with the given key (there is at most one in a
well-formed graph), leaving other entries alone. -/
def updateA {α β : Type} [DecidableEq α] (l : List (α × β)) (k : α) (f : β → β) :
    List (α × β) :=
  l.map (fun p => if p.1 = k then (p.1, f p.2) else p)


/-- `graph.add_node(id, **mask)`: merge attributes if present, else append. -/
def mergeNode (g : Graph) (id : String) (m : NodeAttrs) : Graph :=
  if (lookupA g.nodes id).isSome then
    { g with nodes := updateA g.nodes id (applyMask m) }
  else
    { g with nodes := g.nodes ++ [(id, applyMask m NodeAttrs.empty)] }


/-- Implicit endpoint creation performed by `add_edge`: a missing endpoint is
added with an empty attribute dict, an existing one is untouched. -/
def ensureNode (g : Graph) (id : String) : Graph :=
  if (lookupA g.nodes id).isSome then g
  else { g with nodes := g.nodes ++ [(id, NodeAttrs.empty)] }


/-- `graph.add_edge(u, v, relation=rel)`: ensure both endpoints, then set the
edge's relation attribute (overwriting it if the edge already exists). -/
def addEdge (g : Graph) (u v rel : String) : Graph :=
  let g1 := ensureNode (ensureNode g u) v
  if (lookupA g1.edges (u, v)).isSome then
    { g1 with edges := updateA g1.edges (u, v) (fun _ => some rel) }
  else
    { g1 with edges := g1.edges ++ [((u, v), some rel)] }


/-- Is the first list a prefix of the second? -/
def isPreOf : List Char → List Char → Bool
  | [], _ => true
  | _ :: _, [] => false
  | p :: ps, c :: cs => p == c && isPreOf ps cs


/-- `s.startswith(pat)`. -/
def sStartsWith (s pat : String) : Bool :=
  isPreOf pat.toList s.toList


/-- `s.endswith(pat)`. -/
def sEndsWith (s pat : String) : Bool :=
  isPreOf pat.toList.reverse s.toList.reverse


/-- `s[:n]`. -/
def sTake (s : String) (n : Nat) : String :=
  String.mk (s.toList.take n)


/-- `s[:-n]` (for n ≤ len). -/
def sDropRight (s : String) (n : Nat) : String :=
  String.mk (s.toList.take (s.toList.length - n))


/-- Split at the first occurrence of a non-empty separator:
`(before, after)`, or `none` when the separator does not occur. -/
def splitFirst (sep : List Char) : List Char → Option (List Char × List Char)
  | [] => none
  | c :: cs =>
    if isPreOf sep (c :: cs) then some ([], (c :: cs).drop sep.length)
    else
      match splitFirst sep cs with
      | some (pre, post) => some (c :: pre, post)
      | none => none


/-- Left-to-right non-overlapping split; the fuel only bounds recursion and
never runs out for a non-empty separator (each step consumes ≥ 1 char). -/
def splitAux (sep : List Char) : Nat → List Char → List (List Char)
  | 0, cs => [cs]
  | fuel + 1, cs =>
    match splitFirst sep cs with
    | none => [cs]
    | some (pre, post) => pre :: splitAux sep fuel post


/-- `s.split(sep)` for a non-empty separator, as in Python:
`"a||b".split("|") == ["a","","b"]`, `"".split("|") == [""]`. -/
def sSplitOn (s sep : String) : List String :=
  (splitAux sep.toList (s.toList.length + 1) s.toList).map String.mk


/-- Join char lists with a separator. -/
def interList (sep : List Char) : List (List Char) → List Char
  | [] => []
  | [x] => x
  | x :: y :: t => x ++ sep ++ interList sep (y :: t)


/-- `sep.join(l)`. -/
def sIntercalate (sep : String) (l : List String) : String :=
  String.mk (interList sep.toList (l.map String.toList))


/-- The NodeType enum of main.py. -/
inductive NodeType where
  | COMMIT
  | FILE
  | FOLDER
  | REPOSITORY
deriving DecidableEq


def NodeType.value : NodeType → String
  | .COMMIT => "commit"
  | .FILE => "file"
  | .FOLDER => "folder"
  | .REPOSITORY => "repository"


/-- Attribute mask carrying only a node_type. -/
def typeMask (ty : String) : NodeAttrs := ⟨some ty, none, none, none⟩


/-- `add_commit`: unconditionally add/merge a commit node with all four
attributes. -/
def add_commit (commit_hash timestamp author message : String) (g : Graph) :
    Graph :=
  mergeNode g commit_hash
    ⟨some NodeType.COMMIT.value, some timestamp, some author, some message⟩


/-- `add_file`: create the file node if absent, then link the commit to it. -/
def add_file (file_path commit_hash : String) (g : Graph) : Graph :=
  let g1 :=
    if (lookupA g.nodes file_path).isSome then g
    else mergeNode g file_path (typeMask NodeType.FILE.value)
  addEdge g1 commit_hash file_path "modifies"


/-- `add_folder`: create the folder node only if absent. -/
def add_folder (folder_path : String) (g : Graph) : Graph :=
  if (lookupA g.nodes folder_path).isSome then g
  else mergeNode g folder_path (typeMask NodeType.FOLDER.value)


/-- Number of leading slashes POSIX normpath preserves (1, or exactly 2). -/
def initialSlashes (path : String) : Nat :=
  if sStartsWith path "/" then
    if sStartsWith path "//" ∧ ¬ sStartsWith path "///" then 2 else 1
  else 0


/-- `os.path.normpath` for POSIX paths, as in CPython's posixpath. -/
def normpath (path : String) : String :=
  if path = "" then "." else
  let isl := initialSlashes path
  let comps := sSplitOn path "/"
  let newComps := comps.foldl (fun acc comp =>
    if comp = "" ∨ comp = "." then acc
    else if comp ≠ ".." ∨ (isl = 0 ∧ acc = []) ∨ (acc ≠ [] ∧ acc.getLast? = some "..")
      then acc ++ [comp]
    else if acc ≠ [] then acc.dropLast
    else acc) ([] : List String)
  let path' := String.mk (List.replicate isl '/') ++ sIntercalate "/" newComps
  if path' = "" then "." else path'


/-- `os.path.basename`: everything after the last slash. -/
def basename (p : String) : String :=
  ((sSplitOn p "/").getLast?).getD ""


/-- `os.path.dirname`: everything up to the last slash, with trailing slashes
stripped unless the head is all slashes. -/
def dirname (p : String) : String :=
  let parts := sSplitOn p "/"
  if parts.length ≤ 1 then ""
  else
    let head := sIntercalate "/" parts.dropLast ++ "/"
    if head.toList.all (fun c => c == '/') then head
    else String.mk ((head.toList.reverse.dropWhile (fun c => c == '/')).reverse)


/-- `os.path.join` for one component, as used with os.walk entries. -/
def joinPath (a b : String) : String :=
  if sStartsWith b "/" then b
  else if a = "" ∨ sEndsWith a "/" then a ++ b
  else a ++ "/" ++ b


/-- `add_file_to_folder`: create the parent folder and a contains edge. -/
def add_file_to_folder (file_path : String) (g : Graph) : Graph :=
  let folder_path := dirname file_path
  let g1 := add_folder folder_path g
  addEdge g1 folder_path file_path "contains"


/-- `add_reference`: ensure both files exist as File nodes, then add the
references edge. -/
def add_reference (src_file dest_file : String) (g : Graph) : Graph :=
  let g1 :=
    if (lookupA g.nodes src_file).isSome then g
    else mergeNode g src_file (typeMask NodeType.FILE.value)
  let g2 :=
    if (lookupA g1.nodes dest_file).isSome then g1
    else mergeNode g1 dest_file (typeMask NodeType.FILE.value)
  addEdge g2 src_file dest_file "references"


/-- `add_repository`: unconditionally add/merge the repository node. -/
def add_repository (repo_id : String) (g : Graph) : Graph :=
  mergeNode g repo_id (typeMask NodeType.REPOSITORY.value)


/-- Fallback identity: `os.path.basename(os.path.normpath(repo_path))`. -/
def fallback_id (repo_path : String) : String :=
  basename (normpath repo_path)


/-- `s.split(":", 1)[1]`: the part after the first colon, or `none` when there
is no colon (in which case Python raises IndexError, caught by the caller). -/
def afterFirstColon (s : String) : Option String :=
  match sSplitOn s ":" with
  | [] => none
  | [_] => none
  | _ :: rest => some (sIntercalate ":" rest)


/-- Strip a trailing ".git" suffix if present (`path_part[:-4]`). -/
def dropGitSuffix (s : String) : String :=
  if sEndsWith s ".git" then sDropRight s 4 else s


/-- The slash-separated segments obtained from a remote URL, `none` when the
parsing raises (git@ URL without a colon). -/
def remoteParts (remote_url : String) : Option (List String) :=
  if sStartsWith remote_url "git@" then
    match afterFirstColon remote_url with
    | none => none
    | some path_part => some (sSplitOn (dropGitSuffix path_part) "/")
  else if sStartsWith remote_url "https://" then
    let parts := sSplitOn remote_url "/"
    some (parts.dropLast ++ [dropGitSuffix ((parts.getLast?).getD "")])
  else
    some []


/-- `get_repository_id`: derive "owner/name" from the remote URL, falling back
to the final path component.  `remote = none` models a failing
`git remote get-url origin` call (the except branch). -/
def get_repository_id (repo_path : String) (remote : Option String) : String :=
  match remote with
  | none => fallback_id repo_path
  | some remote_url =>
    match remoteParts remote_url with
    | none => fallback_id repo_path
    | some parts =>
      if 2 ≤ parts.length then
        match parts.reverse with
        | b :: a :: _ => a ++ "/" ++ b
        | _ => fallback_id repo_path
      else fallback_id repo_path


/-- One iteration of the loop in `process_commits`: split on `|`, keep only
lines with exactly four fields. -/
def processCommitLine (repo_id : String) (g : Graph) (line : String) : Graph :=
  match sSplitOn line "|" with
  | [commit_hash, timestamp, author, message] =>
    addEdge (add_commit commit_hash timestamp author message g)
      repo_id commit_hash "has_commit"
  | _ => g


/-- `process_commits`: `log = none` models a CalledProcessError from git log
(the history becomes the empty list). -/
def process_commits (log : Option (List String)) (repo_id : String)
    (g : Graph) : Graph :=
  (log.getD []).foldl (processCommitLine repo_id) g


/-- Python's `\s` character class. -/
def isSpace (c : Char) : Bool :=
  c == ' ' || c == '\t' || c == '\n' || c == '\r' || c == '\x0b' || c == '\x0c'


/-- Consume a literal character sequence. -/
def dropLit : List Char → List Char → Option (List Char)
  | [], cs => some cs
  | _ :: _, [] => none
  | l :: ls, c :: cs => if c = l then dropLit ls cs else none


/-- Match `\s*\)` at the head: skip whitespace, require a closing paren. -/
def closeParen (cs : List Char) : Option (List Char) :=
  match cs.dropWhile isSpace with
  | ')' :: rem => some rem
  | _ => none


/-- The non-greedy capture `(.*?)"\s*\)`: the capture extends to the first
quote that is followed by `\s*\)`; a quote not so followed is backtracked into
the capture; `.` never matches a newline. -/
def captureLoop (acc : List Char) : List Char → Option (String × List Char)
  | [] => none
  | c :: rest =>
    if c = '"' then
      match closeParen rest with
      | some rem => some (String.mk acc.reverse, rem)
      | none => captureLoop (c :: acc) rest
    else if c = '\n' then none
    else captureLoop (c :: acc) rest


/-- Try to match `@import\s*\(\s*"(.*?)"\s*\)` at the head of the input,
returning the capture and the remaining input. -/
def matchImportAt (cs : List Char) : Option (String × List Char) :=
  match dropLit "@import".toList cs with
  | none => none
  | some cs1 =>
    match cs1.dropWhile isSpace with
    | '(' :: cs3 =>
      match cs3.dropWhile isSpace with
      | '"' :: cs5 => captureLoop [] cs5
      | _ => none
    | _ => none


/-- `re.findall` scanning: try the pattern at each position, resuming after a
successful non-overlapping match.  Fuel bounds the recursion; every step
consumes at least one character, so `cs.length` fuel never runs out. -/
def scanImports : Nat → List Char → List String
  | 0, _ => []
  | _, [] => []
  | fuel + 1, c :: rest =>
    match matchImportAt (c :: rest) with
    | some (cap, rem) => cap :: scanImports fuel rem
    | none => scanImports fuel rest


/-- Keep the first occurrence of each element (a canonical order for the
Python `set(...)` of findall results; set iteration order is unspecified, and
no statement below depends on this order). -/
def dedupFirst (l : List String) : List String :=
  l.foldl (fun acc x => if x ∈ acc then acc else acc ++ [x]) []


/-- `set(re.findall(r'@import\s*\(\s*"(.*?)"\s*\)', content))`. -/
def extractImports (content : String) : List String :=
  dedupFirst (scanImports content.toList.length content.toList)


/-- One import of the loop body in `analyze_zig_file`. -/
def processImport (file_path : String) (g : Graph) (imp : String) : Graph :=
  addEdge
    (mergeNode (mergeNode g file_path (typeMask NodeType.FILE.value))
      imp (typeMask NodeType.FILE.value))
    file_path imp "references"


/-- `analyze_zig_file`: `content = none` models an unreadable file (the except
branch logs a warning and leaves the graph unchanged). -/
def analyze_zig_file (file_path : String) (content : Option String)
    (g : Graph) : Graph :=
  match content with
  | none => g
  | some text => (extractImports text).foldl (processImport file_path) g


/-- A file met during os.walk: its name and, if it was opened, the outcome. -/
structure FileEntry where
  name : String
  content : Option String
deriving DecidableEq


/-- One `(root, dirs, files)` triple yielded by os.walk. -/
structure WalkEntry where
  root : String
  dirs : List String
  files : List FileEntry
deriving DecidableEq


/-- Body of the per-file loop in `process_repository_files`. -/
def processWalkFile (root : String) (g : Graph) (f : FileEntry) : Graph :=
  let file_path := joinPath root f.name
  let g1 := add_file_to_folder file_path g
  if sEndsWith f.name ".zig" then analyze_zig_file file_path f.content g1 else g1


/-- Body of the per-directory-triple loop in `process_repository_files`. -/
def processWalkEntry (g : Graph) (e : WalkEntry) : Graph :=
  let g1 := add_folder e.root g
  let g2 := e.dirs.foldl (fun g d => add_folder (joinPath e.root d) g) g1
  e.files.foldl (processWalkFile e.root) g2


/-- `process_repository_files` over the walk listing. -/
def process_repository_files (walk : List WalkEntry) (g : Graph) : Graph :=
  walk.foldl processWalkEntry g


/-- The external-world inputs consumed while processing one repository. -/
structure RepoInput where
  repo_path : String
  remote : Option String
  log : Option (List String)
  walk : List WalkEntry
deriving DecidableEq


/-- `process_repository`: repository node, commits, files, commits again. -/
def process_repository (inp : RepoInput) (g : Graph) : Graph :=
  let repo_id := get_repository_id inp.repo_path inp.remote
  let g1 := add_repository repo_id g
  let g2 := process_commits inp.log repo_id g1
  let g3 := process_repository_files inp.walk g2
  process_commits inp.log repo_id g3


/-- A row of the `nodes` table. -/
structure NodeRow where
  id : String
  type : String
  timestamp : String
  author : String
  message : String
deriving DecidableEq


/-- A row of the `edges` table. -/
structure EdgeRow where
  src : String
  dest : String
  relation : String
deriving DecidableEq


/-- The durable store: both tables, rows in insertion order. -/
structure Store where
  nodes : List NodeRow
  edges : List EdgeRow
deriving DecidableEq


def Store.empty : Store := ⟨[], []⟩


/-- INSERT OR IGNORE into `nodes` (primary key: id). -/
def insertNodeRow (s : Store) (r : NodeRow) : Store :=
  if s.nodes.any (fun x => decide (x.id = r.id)) then s
  else { s with nodes := s.nodes ++ [r] }


/-- INSERT OR IGNORE into `edges` (primary key: (src, dest, relation)). -/
def insertEdgeRow (s : Store) (e : EdgeRow) : Store :=
  if s.edges.any (fun x => decide (x.src = e.src ∧ x.dest = e.dest ∧ x.relation = e.relation))
  then s
  else { s with edges := s.edges ++ [e] }


/-- The row `save_graph_to_db` builds for a node:
`str(attrs.get(key, ""))` for each attribute. -/
def nodeRowOf (p : String × NodeAttrs) : NodeRow :=
  ⟨p.1, p.2.node_type.getD "", p.2.timestamp.getD "",
   p.2.author.getD "", p.2.message.getD ""⟩


/-- The row `save_graph_to_db` builds for an edge. -/
def edgeRowOf (p : (String × String) × Option String) : EdgeRow :=
  ⟨p.1.1, p.1.2, p.2.getD ""⟩


/-- `save_graph_to_db`: INSERT OR IGNORE every node, then every edge. -/
def save_graph_to_db (g : Graph) (s : Store) : Store :=
  let s1 := g.nodes.foldl (fun s p => insertNodeRow s (nodeRowOf p)) s
  g.edges.foldl (fun s p => insertEdgeRow s (edgeRowOf p)) s1


/-- `load_graph_from_db`: add every node row (all four attributes set), then
every edge row, into the given in-memory graph. -/
def load_graph_from_db (s : Store) (g : Graph) : Graph :=
  let g1 := s.nodes.foldl (fun g r =>
    mergeNode g r.id ⟨some r.type, some r.timestamp, some r.author, some r.message⟩) g
  s.edges.foldl (fun g e => addEdge g e.src e.dest e.relation) g1


/-- One record returned by the commits endpoint. -/
structure CommitRecord where
  commit : String
  timestamp : String
  author : String
  message : String
deriving DecidableEq


/-- The record built from a commit node row: 7-char truncated id plus the
stored attributes. -/
def recordOf (n : NodeRow) : CommitRecord :=
  ⟨sTake n.id 7, n.timestamp, n.author, n.message⟩


/-- `get_commits_for_repo`: join `has_commit` edges with commit-typed node
rows for the given repository id. -/
def get_commits_for_repo (repo_id : String) (s : Store) : List CommitRecord :=
  (s.edges.filter (fun e => decide (e.src = repo_id ∧ e.relation = "has_commit"))).flatMap
    (fun e =>
      (s.nodes.filter (fun n => decide (n.id = e.dest ∧ n.type = NodeType.COMMIT.value))).map
        recordOf)


/-- The three primitive graph mutations performed by the construction code:
an unconditional attribute merge (`add_node` with keywords), a guarded typed
insert (`if x not in graph: add_node(x, node_type=ty)`), and `add_edge`. -/
inductive POp where
  | merge (id : String) (m : NodeAttrs)
  | ensureT (id : String) (ty : String)
  | edge (u v rel : String)
deriving DecidableEq


/-- Interpret one primitive op on the graph. -/
def stepOp (g : Graph) : POp → Graph
  | .merge id m => mergeNode g id m
  | .ensureT id ty =>
    if (lookupA g.nodes id).isSome then g else mergeNode g id (typeMask ty)
  | .edge u v rel => addEdge g u v rel


/-- Run a list of primitive ops left to right. -/
def runOps (ops : List POp) (g : Graph) : Graph :=
  ops.foldl stepOp g


/-- Ops emitted for one commit-log line. -/
def commitLineOps (repo_id line : String) : List POp :=
  match sSplitOn line "|" with
  | [h, t, a, m] =>
    [.merge h ⟨some NodeType.COMMIT.value, some t, some a, some m⟩,
     .edge repo_id h "has_commit"]
  | _ => []


/-- Ops emitted by `process_commits`. -/
def commitsOps (log : Option (List String)) (repo_id : String) : List POp :=
  (log.getD []).flatMap (commitLineOps repo_id)


/-- Ops emitted for one extracted import. -/
def importOps (file_path imp : String) : List POp :=
  [.merge file_path (typeMask NodeType.FILE.value),
   .merge imp (typeMask NodeType.FILE.value),
   .edge file_path imp "references"]


/-- Ops emitted by `analyze_zig_file`. -/
def zigOps (file_path : String) (content : Option String) : List POp :=
  match content with
  | none => []
  | some text => (extractImports text).flatMap (importOps file_path)


/-- Ops emitted by `add_file_to_folder`. -/
def fileFolderOps (file_path : String) : List POp :=
  [.ensureT (dirname file_path) NodeType.FOLDER.value,
   .edge (dirname file_path) file_path "contains"]


/-- Ops emitted for one file met during the walk. -/
def walkFileOps (root : String) (f : FileEntry) : List POp :=
  fileFolderOps (joinPath root f.name) ++
    (if sEndsWith f.name ".zig" then zigOps (joinPath root f.name) f.content
     else [])


/-- Ops emitted for one os.walk triple. -/
def walkEntryOps (e : WalkEntry) : List POp :=
  POp.ensureT e.root NodeType.FOLDER.value ::
    (e.dirs.flatMap (fun d => [POp.ensureT (joinPath e.root d) NodeType.FOLDER.value]) ++
     e.files.flatMap (walkFileOps e.root))


/-- Ops emitted by `process_repository_files`. -/
def filesOps (walk : List WalkEntry) : List POp :=
  walk.flatMap walkEntryOps


/-- The full op trace of `process_repository` (commits are processed twice,
exactly as the source does). -/
def repoOps (inp : RepoInput) : List POp :=
  let rid := get_repository_id inp.repo_path inp.remote
  POp.merge rid (typeMask NodeType.REPOSITORY.value) ::
    (commitsOps inp.log rid ++ (filesOps inp.walk ++ commitsOps inp.log rid))


/-- The effect of one op on the attribute cell of a fixed node id. -/
def cellStep (op : POp) (id : String) (a : Option NodeAttrs) : Option NodeAttrs :=
  match op with
  | .merge id' m => if id' = id then some (applyMask m (a.getD NodeAttrs.empty)) else a
  | .ensureT id' ty => if id' = id then some (a.getD (typeMask ty)) else a
  | .edge u v _ => if u = id ∨ v = id then some (a.getD NodeAttrs.empty) else a


/-- The edge-cell projection of one interpreted op. -/
def ecellStep (op : POp) (k : String × String) (r : Option (Option String)) :
    Option (Option String) :=
  match op with
  | .edge u v rel => if (u, v) = k then some (some rel) else r
  | _ => r


/-- The node cell of a fixed id threaded through a whole op list. -/
def cfold (id : String) (ops : List POp) (a : Option NodeAttrs) : Option NodeAttrs :=
  ops.foldl (fun a op => cellStep op id a) a


/-- The edge cell of a fixed key threaded through a whole op list. -/
def efold (k : String × String) (ops : List POp) (r : Option (Option String)) :
    Option (Option String) :=
  ops.foldl (fun r op => ecellStep op k r) r


/-- Apply an optional overwrite: `none` leaves the value, `some c` replaces it. -/
def wapply {α : Type} (x : α) (w : Option α) : α :=
  match w with
  | none => x
  | some c => c


/-- Replay a list of optional overwrites. -/
def wfold {α : Type} (ws : List (Option α)) (x : α) : α :=
  ws.foldl wapply x


/-- On an existing node, only a merge op changes the attribute dict. -/
def cellMask (op : POp) (id : String) (v : NodeAttrs) : NodeAttrs :=
  match op with
  | .merge id' m => if id' = id then applyMask m v else v
  | _ => v


/-- The attribute dict of a fixed present node threaded through an op list. -/
def mfold (id : String) (ops : List POp) (v : NodeAttrs) : NodeAttrs :=
  ops.foldl (fun v op => cellMask op id v) v


/-- The per-field overwrite emitted by one op for a fixed node id, for a given
field selector. -/
def fWrite (sel : NodeAttrs → Option String) (id : String) (op : POp) :
    Option (Option String) :=
  match op with
  | .merge id' m =>
    if id' = id then
      match sel m with
      | some c => some (some c)
      | none => none
    else none
  | _ => none


/-- The per-field overwrite a mask performs. -/
def maskW (sel : NodeAttrs → Option String) (m : NodeAttrs) :
    Option (Option String) :=
  match sel m with
  | some c => some (some c)
  | none => none


/-- The edge-cell write emitted by one op for a fixed edge key. -/
def eWrite (k : String × String) (op : POp) : Option (Option (Option String)) :=
  match op with
  | .edge u v rel => if (u, v) = k then some (some (some rel)) else none
  | _ => none


/-- The node ids an op touches. -/
def opNodeIds : POp → List String
  | .merge id _ => [id]
  | .ensureT id _ => [id]
  | .edge u v _ => [u, v]


/-- The edge keys an op touches. -/
def opEdgeKeys : POp → List (String × String)
  | .edge u v _ => [(u, v)]
  | _ => []


/-- First row of the nodes table with the given primary key. -/
def lookupNodeRow (s : Store) (id : String) : Option NodeRow :=
  s.nodes.find? (fun r => decide (r.id = id))


-- --------------------
-- Theorems
-- --------------------

theorem runOps_nil (g : Graph) : runOps [] g = g := rfl


theorem runOps_cons (op : POp) (ops : List POp) (g : Graph) :
    runOps (op :: ops) g = runOps ops (stepOp g op) := rfl


theorem runOps_append (xs ys : List POp) (g : Graph) :
    runOps (xs ++ ys) g = runOps ys (runOps xs g) := by
  simp [runOps, List.foldl_append]


/-- A fold whose steps each run a compiled op list runs the concatenation. -/
theorem foldl_runOps {α : Type} (f : α → List POp) (step : Graph → α → Graph)
    (hstep : ∀ g a, step g a = runOps (f a) g) :
    ∀ (l : List α) (g : Graph), l.foldl step g = runOps (l.flatMap f) g := by
  intro l
  induction l with
  | nil => intro g; rfl
  | cons a t ih =>
    intro g
    simp only [List.foldl_cons, List.flatMap_cons, runOps_append, hstep, ih]


theorem processCommitLine_eq (rid : String) (g : Graph) (line : String) :
    processCommitLine rid g line = runOps (commitLineOps rid line) g := by
  unfold processCommitLine commitLineOps
  rcases sSplitOn line "|" with _ | ⟨h, _ | ⟨t, _ | ⟨a, _ | ⟨m, _ | ⟨x, rest⟩⟩⟩⟩⟩ <;> rfl


theorem process_commits_eq (log : Option (List String)) (rid : String)
    (g : Graph) : process_commits log rid g = runOps (commitsOps log rid) g :=
  foldl_runOps (commitLineOps rid) (processCommitLine rid)
    (processCommitLine_eq rid) (log.getD []) g


theorem analyze_zig_file_eq (fp : String) (content : Option String)
    (g : Graph) : analyze_zig_file fp content g = runOps (zigOps fp content) g := by
  cases content with
  | none => rfl
  | some text =>
    exact foldl_runOps (importOps fp) (processImport fp) (fun _ _ => rfl)
      (extractImports text) g


theorem add_file_to_folder_eq (fp : String) (g : Graph) :
    add_file_to_folder fp g = runOps (fileFolderOps fp) g := rfl


theorem processWalkFile_eq (root : String) (g : Graph) (f : FileEntry) :
    processWalkFile root g f = runOps (walkFileOps root f) g := by
  unfold processWalkFile walkFileOps
  cases hz : sEndsWith f.name ".zig" with
  | false =>
    simp only [hz, if_false, Bool.false_eq_true, List.append_nil]
    exact add_file_to_folder_eq _ g
  | true =>
    simp only [hz, if_true, runOps_append]
    rw [add_file_to_folder_eq, analyze_zig_file_eq]


theorem processWalkEntry_eq (g : Graph) (e : WalkEntry) :
    processWalkEntry g e = runOps (walkEntryOps e) g := by
  unfold processWalkEntry walkEntryOps
  dsimp only
  rw [runOps_cons, runOps_append]
  have h1 : add_folder e.root g = stepOp g (POp.ensureT e.root NodeType.FOLDER.value) := rfl
  rw [h1]
  have h2 := foldl_runOps (fun d => [POp.ensureT (joinPath e.root d) NodeType.FOLDER.value])
    (fun g d => add_folder (joinPath e.root d) g) (fun _ _ => rfl) e.dirs
  rw [h2]
  exact foldl_runOps (walkFileOps e.root) (processWalkFile e.root)
    (processWalkFile_eq e.root) e.files _


theorem process_repository_files_eq (walk : List WalkEntry) (g : Graph) :
    process_repository_files walk g = runOps (filesOps walk) g :=
  foldl_runOps walkEntryOps processWalkEntry processWalkEntry_eq walk g


theorem process_repository_eq (inp : RepoInput) (g : Graph) :
    process_repository inp g = runOps (repoOps inp) g := by
  unfold process_repository repoOps
  dsimp only
  rw [runOps_cons, runOps_append, runOps_append]
  have h1 : add_repository (get_repository_id inp.repo_path inp.remote) g =
      stepOp g (POp.merge (get_repository_id inp.repo_path inp.remote)
        (typeMask NodeType.REPOSITORY.value)) := rfl
  rw [h1, process_commits_eq, process_repository_files_eq, process_commits_eq]


theorem lookupA_update {α β : Type} [DecidableEq α] (l : List (α × β)) (k a : α)
    (f : β → β) :
    lookupA (updateA l k f) a =
      if k = a then (lookupA l a).map f else lookupA l a := by
  induction l with
  | nil =>
    simp only [updateA, List.map_nil, lookupA]
    split <;> rfl
  | cons p t ih =>
    obtain ⟨pk, pv⟩ := p
    simp only [updateA, List.map_cons] at ih ⊢
    by_cases hpk : pk = k
    · subst hpk
      by_cases hka : pk = a
      · subst hka
        simp [lookupA, ih]
      · simp [lookupA, hka, ih]
    · by_cases hka : k = a
      · subst hka
        simp [lookupA, hpk, ih]
      · simp [lookupA, hpk, hka, ih]


theorem lookupA_append_single {α β : Type} [DecidableEq α] (l : List (α × β))
    (k a : α) (v : β) :
    lookupA (l ++ [(k, v)]) a =
      if (lookupA l a).isSome then lookupA l a
      else if k = a then some v else none := by
  induction l with
  | nil => simp [lookupA]
  | cons p t ih =>
    obtain ⟨pk, pv⟩ := p
    by_cases hpk : pk = a <;> simp_all [lookupA]


theorem lookupA_isSome_iff_mem {α β : Type} [DecidableEq α]
    (l : List (α × β)) (a : α) :
    (lookupA l a).isSome ↔ a ∈ l.map Prod.fst := by
  induction l with
  | nil => simp [lookupA]
  | cons p t ih =>
    obtain ⟨pk, pv⟩ := p
    by_cases hpk : pk = a
    · subst hpk
      simp [lookupA]
    · have hka : ¬ a = pk := fun h => hpk h.symm
      simp [lookupA, hpk, hka, ih]


theorem updateA_map_fst {α β : Type} [DecidableEq α] (l : List (α × β)) (k : α)
    (f : β → β) : (updateA l k f).map Prod.fst = l.map Prod.fst := by
  induction l with
  | nil => rfl
  | cons p t ih =>
    by_cases hpk : p.1 = k <;> simp_all [updateA]


theorem nodupKeys_append_single {α β : Type} [DecidableEq α]
    (l : List (α × β)) (k : α) (v : β) (habs : lookupA l k = none)
    (hnd : (l.map Prod.fst).Nodup) : ((l ++ [(k, v)]).map Prod.fst).Nodup := by
  have hk : k ∉ l.map Prod.fst := by
    rw [← lookupA_isSome_iff_mem, habs]
    simp
  simp only [List.map_append, List.map_cons, List.map_nil]
  exact List.Nodup.append hnd (List.nodup_singleton k)
    (fun a hal hak => hk ((List.mem_singleton.mp hak) ▸ hal))


theorem assoc_ext {α β : Type} [DecidableEq α] :
    ∀ (l1 l2 : List (α × β)), l1.map Prod.fst = l2.map Prod.fst →
      (l1.map Prod.fst).Nodup → (∀ a, lookupA l1 a = lookupA l2 a) → l1 = l2 := by
  intro l1
  induction l1 with
  | nil =>
    intro l2 hk _ _
    cases l2 with
    | nil => rfl
    | cons q t2 => simp at hk
  | cons p t1 ih =>
    intro l2 hk hnd hl
    cases l2 with
    | nil => simp at hk
    | cons q t2 =>
      obtain ⟨pk, pv⟩ := p
      obtain ⟨qk, qv⟩ := q
      simp only [List.map_cons, List.cons.injEq] at hk
      obtain ⟨hkey, htail⟩ := hk
      subst hkey
      have hv : pv = qv := by
        have hh := hl pk
        simp [lookupA] at hh
        exact hh
      subst hv
      have hnd' : (t1.map Prod.fst).Nodup := (List.nodup_cons.mp hnd).2
      have hpk_not : pk ∉ t1.map Prod.fst := (List.nodup_cons.mp hnd).1
      have htl : ∀ a, lookupA t1 a = lookupA t2 a := by
        intro a
        have hla := hl a
        simp only [lookupA] at hla
        by_cases ha : pk = a
        · subst ha
          have h1 : lookupA t1 pk = none := by
            cases h : lookupA t1 pk with
            | none => rfl
            | some x =>
              exact absurd ((lookupA_isSome_iff_mem t1 pk).mp (by simp [h])) hpk_not
          have hpk_not2 : pk ∉ t2.map Prod.fst := by
            rw [← htail]
            exact hpk_not
          have h2 : lookupA t2 pk = none := by
            cases h : lookupA t2 pk with
            | none => rfl
            | some x =>
              exact absurd ((lookupA_isSome_iff_mem t2 pk).mp (by simp [h])) hpk_not2
          rw [h1, h2]
        · simpa [ha] using hla
      exact congrArg _ (ih t2 htail hnd' htl)


theorem mergeNode_edges (g : Graph) (id : String) (m : NodeAttrs) :
    (mergeNode g id m).edges = g.edges := by
  unfold mergeNode
  split <;> rfl


theorem ensureNode_nodes_lookup (g : Graph) (k id : String) :
    lookupA (ensureNode g k).nodes id =
      if k = id then some ((lookupA g.nodes id).getD NodeAttrs.empty)
      else lookupA g.nodes id := by
  unfold ensureNode
  by_cases hk : (lookupA g.nodes k).isSome
  · rw [if_pos hk]
    by_cases hki : k = id
    · subst hki
      obtain ⟨x, hx⟩ := Option.isSome_iff_exists.mp hk
      simp [hx]
    · simp [hki]
  · rw [if_neg hk]
    simp only [lookupA_append_single]
    by_cases hki : k = id
    · subst hki
      have : lookupA g.nodes k = none := Option.not_isSome_iff_eq_none.mp hk
      simp [this]
    · by_cases hs : (lookupA g.nodes id).isSome
      · simp [hs, hki]
      · have : lookupA g.nodes id = none := Option.not_isSome_iff_eq_none.mp hs
        simp [this, hki]


theorem ensureNode_edges (g : Graph) (k : String) :
    (ensureNode g k).edges = g.edges := by
  unfold ensureNode
  split <;> rfl


theorem addEdge_nodes (g : Graph) (u v rel : String) :
    (addEdge g u v rel).nodes = (ensureNode (ensureNode g u) v).nodes := by
  unfold addEdge
  dsimp only
  split <;> rfl


theorem applyMask_typeMask_empty (ty : String) :
    applyMask (typeMask ty) NodeAttrs.empty = typeMask ty := rfl


/-- The node-cell projection of one interpreted op. -/
theorem lookup_nodes_stepOp (g : Graph) (op : POp) (id : String) :
    lookupA (stepOp g op).nodes id = cellStep op id (lookupA g.nodes id) := by
  cases op with
  | merge id' m =>
    show lookupA (mergeNode g id' m).nodes id = _
    unfold mergeNode cellStep
    by_cases hp : (lookupA g.nodes id').isSome
    · rw [if_pos hp]
      show lookupA (updateA g.nodes id' (applyMask m)) id = _
      rw [lookupA_update]
      by_cases hii : id' = id
      · subst hii
        obtain ⟨x, hx⟩ := Option.isSome_iff_exists.mp hp
        simp [hx]
      · simp [hii]
    · rw [if_neg hp]
      show lookupA (g.nodes ++ [(id', applyMask m NodeAttrs.empty)]) id = _
      rw [lookupA_append_single]
      by_cases hii : id' = id
      · subst hii
        have hnone : lookupA g.nodes id' = none := Option.not_isSome_iff_eq_none.mp hp
        simp [hnone]
      · by_cases hs : (lookupA g.nodes id).isSome
        · simp [hs, hii]
        · have hnone : lookupA g.nodes id = none := Option.not_isSome_iff_eq_none.mp hs
          simp [hnone, hii]
  | ensureT id' ty =>
    show lookupA (if (lookupA g.nodes id').isSome then g
      else mergeNode g id' (typeMask ty)).nodes id = _
    unfold cellStep
    by_cases hp : (lookupA g.nodes id').isSome
    · rw [if_pos hp]
      by_cases hii : id' = id
      · subst hii
        obtain ⟨x, hx⟩ := Option.isSome_iff_exists.mp hp
        simp [hx]
      · simp [hii]
    · rw [if_neg hp]
      unfold mergeNode
      rw [if_neg hp]
      show lookupA (g.nodes ++ [(id', applyMask (typeMask ty) NodeAttrs.empty)]) id = _
      rw [lookupA_append_single, applyMask_typeMask_empty]
      by_cases hii : id' = id
      · subst hii
        have hnone : lookupA g.nodes id' = none := Option.not_isSome_iff_eq_none.mp hp
        simp [hnone]
      · by_cases hs : (lookupA g.nodes id).isSome
        · simp [hs, hii]
        · have hnone : lookupA g.nodes id = none := Option.not_isSome_iff_eq_none.mp hs
          simp [hnone, hii]
  | edge u v rel =>
    show lookupA (addEdge g u v rel).nodes id = _
    rw [addEdge_nodes, ensureNode_nodes_lookup, ensureNode_nodes_lookup]
    unfold cellStep
    by_cases hu : u = id <;> by_cases hv : v = id
    · subst hu; subst hv
      simp
    · subst hu
      simp [hv]
    · subst hv
      simp [hu]
    · simp [hu, hv]


theorem lookup_edges_stepOp (g : Graph) (op : POp) (k : String × String) :
    lookupA (stepOp g op).edges k = ecellStep op k (lookupA g.edges k) := by
  cases op with
  | merge id' m =>
    show lookupA (mergeNode g id' m).edges k = _
    rw [mergeNode_edges]
    rfl
  | ensureT id' ty =>
    show lookupA (if (lookupA g.nodes id').isSome then g
      else mergeNode g id' (typeMask ty)).edges k = _
    by_cases hp : (lookupA g.nodes id').isSome
    · rw [if_pos hp]; rfl
    · rw [if_neg hp, mergeNode_edges]; rfl
  | edge u v rel =>
    show lookupA (addEdge g u v rel).edges k = _
    unfold addEdge ecellStep
    dsimp only
    have he : (ensureNode (ensureNode g u) v).edges = g.edges := by
      rw [ensureNode_edges, ensureNode_edges]
    by_cases hp : (lookupA (ensureNode (ensureNode g u) v).edges (u, v)).isSome
    · rw [if_pos hp]
      show lookupA (updateA (ensureNode (ensureNode g u) v).edges (u, v) (fun _ => some rel)) k = _
      rw [lookupA_update, he]
      rw [he] at hp
      by_cases hk : (u, v) = k
      · subst hk
        obtain ⟨x, hx⟩ := Option.isSome_iff_exists.mp hp
        simp [hx]
      · simp [hk]
    · rw [if_neg hp]
      show lookupA ((ensureNode (ensureNode g u) v).edges ++ [((u, v), some rel)]) k = _
      rw [lookupA_append_single, he]
      rw [he] at hp
      by_cases hk : (u, v) = k
      · subst hk
        have hnone : lookupA g.edges (u, v) = none := Option.not_isSome_iff_eq_none.mp hp
        simp [hnone]
      · by_cases hs : (lookupA g.edges k).isSome
        · simp [hs, hk]
        · have hnone : lookupA g.edges k = none := Option.not_isSome_iff_eq_none.mp hs
          simp [hnone, hk]


theorem lookup_nodes_runOps (ops : List POp) :
    ∀ (g : Graph) (id : String),
      lookupA (runOps ops g).nodes id = cfold id ops (lookupA g.nodes id) := by
  induction ops with
  | nil => intro g id; rfl
  | cons op t ih =>
    intro g id
    rw [runOps_cons, ih, lookup_nodes_stepOp]
    rfl


theorem lookup_edges_runOps (ops : List POp) :
    ∀ (g : Graph) (k : String × String),
      lookupA (runOps ops g).edges k = efold k ops (lookupA g.edges k) := by
  induction ops with
  | nil => intro g k; rfl
  | cons op t ih =>
    intro g k
    rw [runOps_cons, ih, lookup_edges_stepOp]
    rfl


theorem wfold_cons {α : Type} (w : Option α) (ws : List (Option α)) (x : α) :
    wfold (w :: ws) x = wfold ws (wapply x w) := rfl


/-- Replaying the same overwrite list twice equals replaying it once: the final
value is the last overwrite if any, else the input. -/
theorem wfold_idem {α : Type} (ws : List (Option α)) (x : α) :
    wfold ws (wfold ws x) = wfold ws x := by
  induction ws generalizing x with
  | nil => rfl
  | cons w t ih =>
    cases w with
    | none => exact ih x
    | some c =>
      show wfold t (wapply (wfold t (wapply x (some c))) (some c)) = wfold t (wapply x (some c))
      show wfold t c = wfold t c
      rfl


theorem cellStep_some (op : POp) (id : String) (v : NodeAttrs) :
    cellStep op id (some v) = some (cellMask op id v) := by
  cases op with
  | merge id' m =>
    unfold cellStep cellMask
    by_cases hii : id' = id <;> simp [hii]
  | ensureT id' ty =>
    unfold cellStep cellMask
    by_cases hii : id' = id <;> simp [hii]
  | edge u v rel =>
    unfold cellStep cellMask
    by_cases h : u = id ∨ v = id <;> simp [h]


theorem cfold_some (id : String) (ops : List POp) :
    ∀ v, cfold id ops (some v) = some (mfold id ops v) := by
  induction ops with
  | nil => intro v; rfl
  | cons op t ih =>
    intro v
    show cfold id t (cellStep op id (some v)) = _
    rw [cellStep_some]
    exact ih (cellMask op id v)


theorem applyMask_field_wapply (sel : NodeAttrs → Option String)
    (hsel : ∀ m v, sel (applyMask m v) = pick (sel m) (sel v))
    (m x : NodeAttrs) : sel (applyMask m x) = wapply (sel x) (maskW sel m) := by
  rw [hsel]
  unfold maskW
  cases h : sel m <;> simp [pick, wapply, h]


theorem cellMask_field (sel : NodeAttrs → Option String)
    (hsel : ∀ m v, sel (applyMask m v) = pick (sel m) (sel v))
    (op : POp) (id : String) (v : NodeAttrs) :
    sel (cellMask op id v) = wapply (sel v) (fWrite sel id op) := by
  cases op with
  | merge id' m =>
    show sel (if id' = id then applyMask m v else v) =
      wapply (sel v) (if id' = id then maskW sel m else none)
    by_cases hii : id' = id
    · rw [if_pos hii, if_pos hii, applyMask_field_wapply sel hsel]
    · rw [if_neg hii, if_neg hii]
      rfl
  | ensureT id' ty => rfl
  | edge u v' rel => rfl


theorem mfold_field (sel : NodeAttrs → Option String)
    (hsel : ∀ m v, sel (applyMask m v) = pick (sel m) (sel v))
    (id : String) (ops : List POp) :
    ∀ v, sel (mfold id ops v) = wfold (ops.map (fWrite sel id)) (sel v) := by
  induction ops with
  | nil => intro v; rfl
  | cons op t ih =>
    intro v
    show sel (mfold id t (cellMask op id v)) = wfold (fWrite sel id op :: t.map (fWrite sel id)) (sel v)
    rw [ih, wfold_cons, cellMask_field sel hsel]


theorem applyMask_node_type (m v : NodeAttrs) :
    (applyMask m v).node_type = pick m.node_type v.node_type := rfl


theorem applyMask_timestamp (m v : NodeAttrs) :
    (applyMask m v).timestamp = pick m.timestamp v.timestamp := rfl


theorem applyMask_author (m v : NodeAttrs) :
    (applyMask m v).author = pick m.author v.author := rfl


theorem applyMask_message (m v : NodeAttrs) :
    (applyMask m v).message = pick m.message v.message := rfl


theorem attrs_ext {a b : NodeAttrs} (h1 : a.node_type = b.node_type)
    (h2 : a.timestamp = b.timestamp) (h3 : a.author = b.author)
    (h4 : a.message = b.message) : a = b := by
  cases a
  cases b
  simp_all


theorem mfold_idem (id : String) (ops : List POp) (v : NodeAttrs) :
    mfold id ops (mfold id ops v) = mfold id ops v := by
  apply attrs_ext
  · simp only [mfold_field _ applyMask_node_type]
    exact wfold_idem _ _
  · simp only [mfold_field _ applyMask_timestamp]
    exact wfold_idem _ _
  · simp only [mfold_field _ applyMask_author]
    exact wfold_idem _ _
  · simp only [mfold_field _ applyMask_message]
    exact wfold_idem _ _


theorem wfold_wapply_idem {α : Type} (ws : List (Option α)) (w : Option α)
    (x : α) :
    wfold ws (wapply (wfold ws (wapply x w)) w) = wfold ws (wapply x w) := by
  have h := wfold_idem (w :: ws) x
  simpa [wfold_cons] using h


/-- `mfold ∘ applyMask m` is idempotent as well: per field this is the replay
of the overwrite list with the mask's write prepended. -/
theorem mfold_mask_idem (id : String) (ops : List POp) (m : NodeAttrs) (v : NodeAttrs) :
    mfold id ops (applyMask m (mfold id ops (applyMask m v))) =
      mfold id ops (applyMask m v) := by
  apply attrs_ext
  · simp only [mfold_field _ applyMask_node_type,
      applyMask_field_wapply _ applyMask_node_type]
    exact wfold_wapply_idem _ _ _
  · simp only [mfold_field _ applyMask_timestamp,
      applyMask_field_wapply _ applyMask_timestamp]
    exact wfold_wapply_idem _ _ _
  · simp only [mfold_field _ applyMask_author,
      applyMask_field_wapply _ applyMask_author]
    exact wfold_wapply_idem _ _ _
  · simp only [mfold_field _ applyMask_message,
      applyMask_field_wapply _ applyMask_message]
    exact wfold_wapply_idem _ _ _


theorem cellStep_merge (id' : String) (m : NodeAttrs) (id : String)
    (a : Option NodeAttrs) :
    cellStep (POp.merge id' m) id a =
      if id' = id then some (applyMask m (a.getD NodeAttrs.empty)) else a := rfl


theorem cellMask_merge (id' : String) (m : NodeAttrs) (id : String)
    (v : NodeAttrs) :
    cellMask (POp.merge id' m) id v = if id' = id then applyMask m v else v := rfl


theorem cellMask_of_cellStep_none (op : POp) (id : String)
    (h : cellStep op id none = none) : ∀ v, cellMask op id v = v := by
  intro v
  cases op with
  | merge id' m =>
    by_cases hii : id' = id
    · exfalso
      rw [cellStep_merge, if_pos hii] at h
      exact Option.noConfusion h
    · rw [cellMask_merge, if_neg hii]
  | ensureT id' ty => rfl
  | edge u v' rel => rfl


theorem cfold_none_fix (id : String) :
    ∀ (ops : List POp) (D : NodeAttrs),
      cfold id ops none = some D → mfold id ops D = D := by
  intro ops
  induction ops with
  | nil =>
    intro D h
    exact absurd h (by simp [cfold])
  | cons op t ih =>
    intro D h
    have hstep : cfold id (op :: t) none = cfold id t (cellStep op id none) := rfl
    rw [hstep] at h
    cases h0 : cellStep op id none with
    | none =>
      rw [h0] at h
      have hD := ih D h
      show mfold id t (cellMask op id D) = D
      rw [cellMask_of_cellStep_none op id h0, hD]
    | some d0 =>
      rw [h0, cfold_some] at h
      have hD : mfold id t d0 = D := Option.some.inj h
      cases op with
      | merge id' m =>
        by_cases hii : id' = id
        · have hd0 : applyMask m NodeAttrs.empty = d0 := by
            have h1 : cellStep (POp.merge id' m) id none =
                some (applyMask m NodeAttrs.empty) := by
              rw [cellStep_merge, if_pos hii]
              rfl
            exact Option.some.inj (h1 ▸ h0)
          show mfold id t (cellMask (POp.merge id' m) id D) = D
          have hcm : cellMask (POp.merge id' m) id D = applyMask m D := by
            rw [cellMask_merge, if_pos hii]
          rw [hcm, ← hD, ← hd0]
          exact mfold_mask_idem id t m NodeAttrs.empty
        · exfalso
          rw [cellStep_merge, if_neg hii] at h0
          exact Option.noConfusion h0
      | ensureT id' ty =>
        show mfold id t (cellMask (POp.ensureT id' ty) id D) = D
        have hcm : cellMask (POp.ensureT id' ty) id D = D := rfl
        rw [hcm, ← hD]
        exact mfold_idem id t d0
      | edge u v rel =>
        show mfold id t (cellMask (POp.edge u v rel) id D) = D
        have hcm : cellMask (POp.edge u v rel) id D = D := rfl
        rw [hcm, ← hD]
        exact mfold_idem id t d0


theorem cfold_idem (id : String) (ops : List POp) (a : Option NodeAttrs) :
    cfold id ops (cfold id ops a) = cfold id ops a := by
  cases a with
  | some v => simp only [cfold_some, mfold_idem]
  | none =>
    cases h : cfold id ops none with
    | none => exact h
    | some D => rw [cfold_some, cfold_none_fix id ops D h]


theorem ecellStep_wapply (op : POp) (k : String × String)
    (r : Option (Option String)) : ecellStep op k r = wapply r (eWrite k op) := by
  cases op with
  | merge id' m => rfl
  | ensureT id' ty => rfl
  | edge u v rel =>
    show (if (u, v) = k then some (some rel) else r) =
      wapply r (if (u, v) = k then some (some (some rel)) else none)
    by_cases hk : (u, v) = k
    · rw [if_pos hk, if_pos hk]
      rfl
    · rw [if_neg hk, if_neg hk]
      rfl


theorem efold_eq_wfold (k : String × String) (ops : List POp) :
    ∀ r, efold k ops r = wfold (ops.map (eWrite k)) r := by
  induction ops with
  | nil => intro r; rfl
  | cons op t ih =>
    intro r
    show efold k t (ecellStep op k r) = wfold (eWrite k op :: t.map (eWrite k)) r
    rw [ih, wfold_cons, ecellStep_wapply]


theorem efold_idem (k : String × String) (ops : List POp)
    (r : Option (Option String)) : efold k ops (efold k ops r) = efold k ops r := by
  simp only [efold_eq_wfold]
  exact wfold_idem _ _


theorem cellStep_isSome (op : POp) (id : String) {a : Option NodeAttrs}
    (h : a.isSome) : (cellStep op id a).isSome := by
  cases op with
  | merge id' m =>
    rw [cellStep_merge]
    split
    · rfl
    · exact h
  | ensureT id' ty =>
    show (if id' = id then some (a.getD (typeMask ty)) else a).isSome
    split
    · rfl
    · exact h
  | edge u v rel =>
    show (if u = id ∨ v = id then some (a.getD NodeAttrs.empty) else a).isSome
    split
    · rfl
    · exact h


theorem ecellStep_isSome (op : POp) (k : String × String)
    {r : Option (Option String)} (h : r.isSome) : (ecellStep op k r).isSome := by
  cases op with
  | merge id' m => exact h
  | ensureT id' ty => exact h
  | edge u v rel =>
    show (if (u, v) = k then some (some rel) else r).isSome
    split <;> simp_all


theorem cellStep_mem_isSome (op : POp) (id : String) (a : Option NodeAttrs)
    (h : id ∈ opNodeIds op) : (cellStep op id a).isSome := by
  cases op with
  | merge id' m =>
    have hmem : id ∈ [id'] := h
    have hii : id' = id := (List.mem_singleton.mp hmem).symm
    rw [cellStep_merge, if_pos hii]
    rfl
  | ensureT id' ty =>
    have hmem : id ∈ [id'] := h
    have hii : id' = id := (List.mem_singleton.mp hmem).symm
    show (if id' = id then some (a.getD (typeMask ty)) else a).isSome
    rw [if_pos hii]
    rfl
  | edge u v rel =>
    have hmem : id ∈ [u, v] := h
    have huv : u = id ∨ v = id := by
      rcases List.mem_cons.mp hmem with h1 | h1
      · exact Or.inl h1.symm
      · exact Or.inr (List.mem_singleton.mp h1).symm
    show (if u = id ∨ v = id then some (a.getD NodeAttrs.empty) else a).isSome
    rw [if_pos huv]
    rfl


theorem ecellStep_mem_isSome (op : POp) (k : String × String)
    (r : Option (Option String)) (h : k ∈ opEdgeKeys op) :
    (ecellStep op k r).isSome := by
  cases op with
  | merge id' m => exact absurd h (List.not_mem_nil k)
  | ensureT id' ty => exact absurd h (List.not_mem_nil k)
  | edge u v rel =>
    have hmem : k ∈ [(u, v)] := h
    have huv : (u, v) = k := (List.mem_singleton.mp hmem).symm
    show (if (u, v) = k then some (some rel) else r).isSome
    rw [if_pos huv]
    rfl


theorem cfold_isSome (id : String) (ops : List POp) :
    ∀ {a : Option NodeAttrs}, a.isSome → (cfold id ops a).isSome := by
  induction ops with
  | nil => intro a h; exact h
  | cons op t ih =>
    intro a h
    exact ih (cellStep_isSome op id h)


theorem efold_isSome (k : String × String) (ops : List POp) :
    ∀ {r : Option (Option String)}, r.isSome → (efold k ops r).isSome := by
  induction ops with
  | nil => intro r h; exact h
  | cons op t ih =>
    intro r h
    exact ih (ecellStep_isSome op k h)


theorem runOps_mentioned_nodes (ops : List POp) :
    ∀ (g : Graph) (op : POp), op ∈ ops → ∀ id ∈ opNodeIds op,
      (lookupA (runOps ops g).nodes id).isSome := by
  induction ops with
  | nil =>
    intro g op hop
    exact absurd hop (List.not_mem_nil op)
  | cons a t ih =>
    intro g op hop id hid
    rw [runOps_cons]
    rcases List.mem_cons.mp hop with h1 | h1
    · subst h1
      rw [lookup_nodes_runOps]
      apply cfold_isSome
      rw [lookup_nodes_stepOp]
      exact cellStep_mem_isSome op id _ hid
    · exact ih (stepOp g a) op h1 id hid


theorem runOps_mentioned_edges (ops : List POp) :
    ∀ (g : Graph) (op : POp), op ∈ ops → ∀ k ∈ opEdgeKeys op,
      (lookupA (runOps ops g).edges k).isSome := by
  induction ops with
  | nil =>
    intro g op hop
    exact absurd hop (List.not_mem_nil op)
  | cons a t ih =>
    intro g op hop k hk
    rw [runOps_cons]
    rcases List.mem_cons.mp hop with h1 | h1
    · subst h1
      rw [lookup_edges_runOps]
      apply efold_isSome
      rw [lookup_edges_stepOp]
      exact ecellStep_mem_isSome op k _ hk
    · exact ih (stepOp g a) op h1 k hk


theorem ensureNode_present (g : Graph) (k : String)
    (h : (lookupA g.nodes k).isSome) : ensureNode g k = g := by
  unfold ensureNode
  rw [if_pos h]


theorem stepOp_nodeKeys (g : Graph) (op : POp)
    (h : ∀ id ∈ opNodeIds op, (lookupA g.nodes id).isSome) :
    (stepOp g op).nodes.map Prod.fst = g.nodes.map Prod.fst := by
  cases op with
  | merge id' m =>
    have hp := h id' (List.mem_singleton.mpr rfl)
    show (mergeNode g id' m).nodes.map Prod.fst = _
    unfold mergeNode
    rw [if_pos hp]
    exact updateA_map_fst g.nodes id' (applyMask m)
  | ensureT id' ty =>
    have hp := h id' (List.mem_singleton.mpr rfl)
    show (if (lookupA g.nodes id').isSome then g
      else mergeNode g id' (typeMask ty)).nodes.map Prod.fst = _
    rw [if_pos hp]
  | edge u v rel =>
    have hu := h u (List.mem_cons_self u [v])
    have hv := h v (List.mem_cons.mpr (Or.inr (List.mem_singleton.mpr rfl)))
    show (addEdge g u v rel).nodes.map Prod.fst = _
    rw [addEdge_nodes, ensureNode_present g u hu, ensureNode_present g v hv]


theorem stepOp_edges_of_ensureT (g : Graph) (id : String) (ty : String) :
    (stepOp g (POp.ensureT id ty)).edges = g.edges := by
  show (if (lookupA g.nodes id).isSome then g
    else mergeNode g id (typeMask ty)).edges = g.edges
  split
  · rfl
  · exact mergeNode_edges g id (typeMask ty)


theorem stepOp_edgeKeys (g : Graph) (op : POp)
    (h : ∀ k ∈ opEdgeKeys op, (lookupA g.edges k).isSome) :
    (stepOp g op).edges.map Prod.fst = g.edges.map Prod.fst := by
  cases op with
  | merge id' m =>
    show (mergeNode g id' m).edges.map Prod.fst = _
    rw [mergeNode_edges]
  | ensureT id' ty => rw [stepOp_edges_of_ensureT]
  | edge u v rel =>
    have hp := h (u, v) (List.mem_singleton.mpr rfl)
    show (addEdge g u v rel).edges.map Prod.fst = _
    unfold addEdge
    dsimp only
    have he : (ensureNode (ensureNode g u) v).edges = g.edges := by
      rw [ensureNode_edges, ensureNode_edges]
    rw [he]
    rw [if_pos hp]
    show (updateA g.edges (u, v) fun _ => some rel).map Prod.fst = _
    exact updateA_map_fst g.edges (u, v) _


theorem runOps_keys (ops : List POp) :
    ∀ (g : Graph),
      (∀ op ∈ ops, (∀ id ∈ opNodeIds op, (lookupA g.nodes id).isSome) ∧
        (∀ k ∈ opEdgeKeys op, (lookupA g.edges k).isSome)) →
      (runOps ops g).nodes.map Prod.fst = g.nodes.map Prod.fst ∧
      (runOps ops g).edges.map Prod.fst = g.edges.map Prod.fst := by
  induction ops with
  | nil => intro g _; exact ⟨rfl, rfl⟩
  | cons a t ih =>
    intro g h
    have ha := h a (List.mem_cons_self a t)
    have hkn := stepOp_nodeKeys g a ha.1
    have hke := stepOp_edgeKeys g a ha.2
    have ht : ∀ op ∈ t, (∀ id ∈ opNodeIds op, (lookupA (stepOp g a).nodes id).isSome) ∧
        (∀ k ∈ opEdgeKeys op, (lookupA (stepOp g a).edges k).isSome) := by
      intro op hop
      have h2 := h op (List.mem_cons.mpr (Or.inr hop))
      refine ⟨fun id hid => ?_, fun k hk => ?_⟩
      · rw [lookup_nodes_stepOp]
        exact cellStep_isSome a id (h2.1 id hid)
      · rw [lookup_edges_stepOp]
        exact ecellStep_isSome a k (h2.2 k hk)
    obtain ⟨h1, h2⟩ := ih (stepOp g a) ht
    rw [runOps_cons]
    exact ⟨h1.trans hkn, h2.trans hke⟩


theorem ensureNode_nodes_nodup (g : Graph) (k : String)
    (h : (g.nodes.map Prod.fst).Nodup) :
    ((ensureNode g k).nodes.map Prod.fst).Nodup := by
  unfold ensureNode
  by_cases hp : (lookupA g.nodes k).isSome
  · rw [if_pos hp]
    exact h
  · rw [if_neg hp]
    exact nodupKeys_append_single g.nodes k NodeAttrs.empty
      (Option.not_isSome_iff_eq_none.mp hp) h


theorem stepOp_nodes_nodup (g : Graph) (op : POp)
    (h : (g.nodes.map Prod.fst).Nodup) :
    ((stepOp g op).nodes.map Prod.fst).Nodup := by
  cases op with
  | merge id' m =>
    show ((mergeNode g id' m).nodes.map Prod.fst).Nodup
    unfold mergeNode
    by_cases hp : (lookupA g.nodes id').isSome
    · rw [if_pos hp]
      show ((updateA g.nodes id' (applyMask m)).map Prod.fst).Nodup
      rw [updateA_map_fst]
      exact h
    · rw [if_neg hp]
      exact nodupKeys_append_single g.nodes id' _
        (Option.not_isSome_iff_eq_none.mp hp) h
  | ensureT id' ty =>
    show ((if (lookupA g.nodes id').isSome then g
      else mergeNode g id' (typeMask ty)).nodes.map Prod.fst).Nodup
    by_cases hp : (lookupA g.nodes id').isSome
    · rw [if_pos hp]
      exact h
    · rw [if_neg hp]
      unfold mergeNode
      rw [if_neg hp]
      exact nodupKeys_append_single g.nodes id' _
        (Option.not_isSome_iff_eq_none.mp hp) h
  | edge u v rel =>
    show ((addEdge g u v rel).nodes.map Prod.fst).Nodup
    rw [addEdge_nodes]
    exact ensureNode_nodes_nodup _ v (ensureNode_nodes_nodup g u h)


theorem stepOp_edges_nodup (g : Graph) (op : POp)
    (h : (g.edges.map Prod.fst).Nodup) :
    ((stepOp g op).edges.map Prod.fst).Nodup := by
  cases op with
  | merge id' m =>
    show ((mergeNode g id' m).edges.map Prod.fst).Nodup
    rw [mergeNode_edges]
    exact h
  | ensureT id' ty =>
    rw [stepOp_edges_of_ensureT]
    exact h
  | edge u v rel =>
    show ((addEdge g u v rel).edges.map Prod.fst).Nodup
    unfold addEdge
    dsimp only
    have he : (ensureNode (ensureNode g u) v).edges = g.edges := by
      rw [ensureNode_edges, ensureNode_edges]
    rw [he]
    by_cases hp : (lookupA g.edges (u, v)).isSome
    · rw [if_pos hp]
      show ((updateA g.edges (u, v) fun _ => some rel).map Prod.fst).Nodup
      rw [updateA_map_fst]
      exact h
    · rw [if_neg hp]
      exact nodupKeys_append_single g.edges (u, v) _
        (Option.not_isSome_iff_eq_none.mp hp) h


theorem runOps_nodes_nodup (ops : List POp) :
    ∀ (g : Graph), (g.nodes.map Prod.fst).Nodup →
      ((runOps ops g).nodes.map Prod.fst).Nodup := by
  induction ops with
  | nil => intro g h; exact h
  | cons a t ih =>
    intro g h
    rw [runOps_cons]
    exact ih _ (stepOp_nodes_nodup g a h)


theorem runOps_edges_nodup (ops : List POp) :
    ∀ (g : Graph), (g.edges.map Prod.fst).Nodup →
      ((runOps ops g).edges.map Prod.fst).Nodup := by
  induction ops with
  | nil => intro g h; exact h
  | cons a t ih =>
    intro g h
    rw [runOps_cons]
    exact ih _ (stepOp_edges_nodup g a h)


theorem graph_ext {g1 g2 : Graph} (hn : g1.nodes = g2.nodes)
    (he : g1.edges = g2.edges) : g1 = g2 := by
  cases g1
  cases g2
  simp_all


/-- Replaying an op list on its own result changes nothing: every touched
node/edge key is already present (so no appends), and every attribute cell
ends at the same last written value. -/
theorem runOps_idem (ops : List POp) (g : Graph)
    (hn : (g.nodes.map Prod.fst).Nodup) (he : (g.edges.map Prod.fst).Nodup) :
    runOps ops (runOps ops g) = runOps ops g := by
  have hpres : ∀ op ∈ ops,
      (∀ id ∈ opNodeIds op, (lookupA (runOps ops g).nodes id).isSome) ∧
      (∀ k ∈ opEdgeKeys op, (lookupA (runOps ops g).edges k).isSome) :=
    fun op hop => ⟨fun id hid => runOps_mentioned_nodes ops g op hop id hid,
      fun k hk => runOps_mentioned_edges ops g op hop k hk⟩
  have hkeys := runOps_keys ops (runOps ops g) hpres
  apply graph_ext
  · apply assoc_ext _ _ hkeys.1
    · exact runOps_nodes_nodup ops _ (runOps_nodes_nodup ops g hn)
    · intro a
      rw [lookup_nodes_runOps, lookup_nodes_runOps]
      exact cfold_idem a ops _
  · apply assoc_ext _ _ hkeys.2
    · exact runOps_edges_nodup ops _ (runOps_edges_nodup ops g he)
    · intro k
      rw [lookup_edges_runOps, lookup_edges_runOps]
      exact efold_idem k ops _


/-- C1: for every repository input (remote-URL outcome, commit log, walk
listing with file contents) and every well-formed starting graph, running the
full construction (`process_repository`: repository node, commits, file and
folder scanning with reference extraction, commits again) twice yields exactly
the same graph — the same node list and edge list, so in particular the same
node set and edge set with no duplicates created by the second pass. -/
theorem claim_C1_construction_idempotent (inp : RepoInput) (g : Graph)
    (hn : (g.nodes.map Prod.fst).Nodup) (he : (g.edges.map Prod.fst).Nodup) :
    process_repository inp (process_repository inp g) = process_repository inp g := by
  simp only [process_repository_eq]
  exact runOps_idem (repoOps inp) g hn he


theorem claim_C1_witness :
    ((Graph.empty.nodes.map Prod.fst).Nodup ∧ (Graph.empty.edges.map Prod.fst).Nodup) ∧
      process_repository
          ⟨"/tmp/myrepo", some "git@github.com:user/repo.git",
            some ["aaaa|1|alice|init", "bad|line"],
            [⟨"/tmp/myrepo", ["src"], [⟨"a.zig", some "@import(\x22core\x22)"⟩]⟩]⟩
          (process_repository
            ⟨"/tmp/myrepo", some "git@github.com:user/repo.git",
              some ["aaaa|1|alice|init", "bad|line"],
              [⟨"/tmp/myrepo", ["src"], [⟨"a.zig", some "@import(\x22core\x22)"⟩]⟩]⟩
            Graph.empty) =
        process_repository
          ⟨"/tmp/myrepo", some "git@github.com:user/repo.git",
            some ["aaaa|1|alice|init", "bad|line"],
            [⟨"/tmp/myrepo", ["src"], [⟨"a.zig", some "@import(\x22core\x22)"⟩]⟩]⟩
          Graph.empty :=
  ⟨⟨by decide, by decide⟩,
    claim_C1_construction_idempotent _ Graph.empty (by decide) (by decide)⟩


/-- C4: identity resolution — the SSH form `git@github.com:user/repo.git`
resolves to `"user/repo"`, the HTTPS form `https://github.com/user/repo`
resolves to `"user/repo"`, and every URL matching neither accepted shape,
every URL yielding fewer than two slash-separated segments, and a failing
remote lookup all fall back to the final path component of the repository's
filesystem location. -/
theorem claim_C4_identity_resolution :
    (∀ p : String,
      get_repository_id p (some "git@github.com:user/repo.git") = "user/repo") ∧
    (∀ p : String,
      get_repository_id p (some "https://github.com/user/repo") = "user/repo") ∧
    (∀ (p url : String), ¬ sStartsWith url "git@" → ¬ sStartsWith url "https://" →
      get_repository_id p (some url) = fallback_id p) ∧
    (∀ (p url : String) (parts : List String), remoteParts url = some parts →
      parts.length < 2 → get_repository_id p (some url) = fallback_id p) ∧
    (∀ (p url : String), remoteParts url = none →
      get_repository_id p (some url) = fallback_id p) ∧
    (∀ p : String, get_repository_id p none = fallback_id p) := by
  refine ⟨fun p => rfl, fun p => rfl, ?_, ?_, ?_, fun p => rfl⟩
  · intro p url h1 h2
    have hrp : remoteParts url = some [] := by
      unfold remoteParts
      rw [if_neg h1, if_neg h2]
    unfold get_repository_id
    dsimp only
    rw [hrp]
    rfl
  · intro p url parts hrp hlen
    unfold get_repository_id
    dsimp only
    rw [hrp]
    show (if 2 ≤ parts.length then _ else fallback_id p) = fallback_id p
    rw [if_neg (Nat.not_le.mpr hlen)]
  · intro p url h
    unfold get_repository_id
    dsimp only
    rw [h]


theorem claim_C4_witness :
    (¬ sStartsWith "ftp://host/a/b" "git@" ∧
      ¬ sStartsWith "ftp://host/a/b" "https://") ∧
    get_repository_id "/some/path/myrepo" (some "ftp://host/a/b") =
      fallback_id "/some/path/myrepo" ∧
    fallback_id "/some/path/myrepo" = "myrepo" :=
  ⟨⟨by decide, by decide⟩,
    claim_C4_identity_resolution.2.2.1 "/some/path/myrepo" "ftp://host/a/b"
      (by decide) (by decide), by decide⟩


/-- C5 counterexample: the resolver does not always return a non-empty
string — for the repository path "/" with a failing remote lookup it returns
the empty string, since `os.path.basename(os.path.normpath("/"))` is `""`. -/
theorem claim_C5_counterexample : get_repository_id "/" none = "" := rfl


/-- C5 (amended): the resolver always terminates (it is a total function of
the path and the remote-URL outcome), and returns a non-empty string whenever
the final component of the normalized repository path is non-empty; only
paths whose basename is empty (the filesystem root "/" and "//") can make it
return the empty string. -/
theorem claim_C5_resolver_nonempty (p : String) (remote : Option String)
    (h : fallback_id p ≠ "") : get_repository_id p remote ≠ "" := by
  cases remote with
  | none => exact h
  | some url =>
    unfold get_repository_id
    dsimp only
    cases hrp : remoteParts url with
    | none => exact h
    | some parts =>
      show (if 2 ≤ parts.length then _ else fallback_id p) ≠ ""
      by_cases hlen : 2 ≤ parts.length
      · rw [if_pos hlen]
        rcases parts.reverse with _ | ⟨b, _ | ⟨a, t⟩⟩
        · exact h
        · exact h
        · intro heq
          have hl := congrArg String.length heq
          simp [String.length_append] at hl
          exact absurd hl.1.2 (by decide)
      · rw [if_neg hlen]
        exact h


theorem claim_C5_witness :
    fallback_id "repos/zig-trainer" ≠ "" ∧
    get_repository_id "repos/zig-trainer" none ≠ "" :=
  ⟨by decide, claim_C5_resolver_nonempty "repos/zig-trainer" none (by decide)⟩


/-- C6: commit-log tolerance — a log line is kept only when it splits into
exactly four |-delimited fields; any other line leaves the graph unchanged
(it is dropped without aborting), and the concrete input of one well-formed
line plus one 2-field line produces exactly one commit node and exactly one
has_commit edge. -/
theorem claim_C6_malformed_log_tolerance :
    (∀ (g : Graph) (rid line : String), (sSplitOn line "|").length ≠ 4 →
      processCommitLine rid g line = g) ∧
    (((process_commits (some ["aaaa|1|alice|init", "bad|line"]) "r"
          (add_repository "r" Graph.empty)).nodes.filter
        (fun p => decide (p.2.node_type = some "commit"))).length = 1 ∧
      ((process_commits (some ["aaaa|1|alice|init", "bad|line"]) "r"
          (add_repository "r" Graph.empty)).edges.filter
        (fun e => decide (e.2 = some "has_commit"))).length = 1) := by
  constructor
  · intro g rid line hlen
    unfold processCommitLine
    rcases hsp : sSplitOn line "|" with _ | ⟨a, _ | ⟨b, _ | ⟨c, _ | ⟨d, _ | ⟨e, t⟩⟩⟩⟩⟩
    · rfl
    · rfl
    · rfl
    · rfl
    · exact absurd (show (sSplitOn line "|").length = 4 by rw [hsp]; rfl) hlen
    · rfl
  · exact ⟨by decide, by decide⟩


theorem claim_C6_witness :
    ((sSplitOn "bad|line" "|").length ≠ 4) ∧
    processCommitLine "r" Graph.empty "bad|line" = Graph.empty :=
  ⟨by decide, claim_C6_malformed_log_tolerance.1 Graph.empty "r" "bad|line" (by decide)⟩


/-- C7: when the version-control inspector reports failure (the log outcome
is `none`), commit extraction treats the history as empty: the graph is
returned unchanged — no commit nodes, no has_commit edges, no error. -/
theorem claim_C7_inspector_failure (rid : String) (g : Graph) :
    process_commits none rid g = g := rfl


/-- C9 counterexample: a Commit node is not write-once in memory — invoking
add_commit again for the same hash with different values overwrites the
stored timestamp, author and message. -/
theorem claim_C9_counterexample :
    lookupA ((add_commit "h1" "2" "bob" "m2"
        (add_commit "h1" "1" "alice" "m1" Graph.empty)).nodes) "h1" =
      some ⟨some "commit", some "2", some "bob", some "m2"⟩ ∧
    lookupA ((add_commit "h1" "1" "alice" "m1" Graph.empty).nodes) "h1" =
      some ⟨some "commit", some "1", some "alice", some "m1"⟩ ∧
    (⟨some "commit", some "2", some "bob", some "m2"⟩ : NodeAttrs) ≠
      ⟨some "commit", some "1", some "alice", some "m1"⟩ := by
  refine ⟨by decide, by decide, by decide⟩


/-- C9 (amended): in the in-memory graph a commit node is last-write-wins,
not write-once — after any sequence of operations, invoking add_commit sets
the node's four attributes to exactly the values of that invocation,
overwriting earlier ones.  (Write-once semantics hold only at the durable
store, via INSERT OR IGNORE — see C3.) -/
theorem claim_C9_commit_last_write_wins (g : Graph) (h t a m : String) :
    lookupA (add_commit h t a m g).nodes h =
      some ⟨some NodeType.COMMIT.value, some t, some a, some m⟩ := by
  unfold add_commit mergeNode
  by_cases hp : (lookupA g.nodes h).isSome
  · rw [if_pos hp]
    show lookupA (updateA g.nodes h _) h = _
    rw [lookupA_update]
    obtain ⟨x, hx⟩ := Option.isSome_iff_exists.mp hp
    simp [hx]
    rfl
  · rw [if_neg hp]
    show lookupA (g.nodes ++ [(h, _)]) h = _
    rw [lookupA_append_single]
    have hnone : lookupA g.nodes h = none := Option.not_isSome_iff_eq_none.mp hp
    simp [hnone]
    rfl


/-- C10: in the in-memory graph, edge identity is (src, dest): adding an edge
between a pair that already has an edge sets that edge's relation to the new
label instead of creating a second edge, and concretely add_reference on a
pair already linked by a contains edge leaves a single edge carrying
relation "references". -/
theorem claim_C10_edge_identity :
    (∀ (g : Graph) (u v rel : String),
      lookupA (addEdge g u v rel).edges (u, v) = some (some rel)) ∧
    (∀ (g : Graph) (u v rel : String), (lookupA g.edges (u, v)).isSome →
      (addEdge g u v rel).edges.map Prod.fst = g.edges.map Prod.fst) ∧
    (add_reference "a" "a/b" (add_file_to_folder "a/b" Graph.empty)).edges =
      [(("a", "a/b"), some "references")] := by
  refine ⟨?_, ?_, by decide⟩
  · intro g u v rel
    have hstep := lookup_edges_stepOp g (POp.edge u v rel) (u, v)
    have hs : stepOp g (POp.edge u v rel) = addEdge g u v rel := rfl
    rw [hs] at hstep
    rw [hstep]
    show (if (u, v) = (u, v) then some (some rel) else _) = some (some rel)
    rw [if_pos rfl]
  · intro g u v rel hp
    have hstep := stepOp_edgeKeys g (POp.edge u v rel) ?_
    · exact hstep
    · intro k hk
      have hmem : k ∈ [(u, v)] := hk
      rw [List.mem_singleton.mp hmem]
      exact hp


theorem claim_C10_witness :
    (lookupA (addEdge Graph.empty "x" "y" "r1").edges ("x", "y")).isSome ∧
    (addEdge (addEdge Graph.empty "x" "y" "r1") "x" "y" "r2").edges.map Prod.fst =
      (addEdge Graph.empty "x" "y" "r1").edges.map Prod.fst :=
  ⟨by decide, claim_C10_edge_identity.2.1 _ "x" "y" "r2" (by decide)⟩


theorem saveNodesFold_eq :
    ∀ (l : List (String × NodeAttrs)) (s : Store),
      (l.map Prod.fst).Nodup →
      (∀ p ∈ l, ∀ r ∈ s.nodes, r.id ≠ p.1) →
      l.foldl (fun s p => insertNodeRow s (nodeRowOf p)) s =
        ⟨s.nodes ++ l.map nodeRowOf, s.edges⟩ := by
  intro l
  induction l with
  | nil =>
    intro s _ _
    cases s
    simp
  | cons p t ih =>
    intro s hnd hfresh
    have hany : s.nodes.any (fun x => decide (x.id = (nodeRowOf p).id)) = false := by
      rw [List.any_eq_false]
      intro x hx
      simp only [decide_eq_true_eq]
      exact hfresh p (List.mem_cons_self p t) x hx
    have hins : insertNodeRow s (nodeRowOf p) = ⟨s.nodes ++ [nodeRowOf p], s.edges⟩ := by
      unfold insertNodeRow
      rw [hany]
      rfl
    show t.foldl _ (insertNodeRow s (nodeRowOf p)) = _
    rw [hins, ih ⟨s.nodes ++ [nodeRowOf p], s.edges⟩ (List.nodup_cons.mp hnd).2 ?fresh]
    · simp
    case fresh =>
      intro q hq r hr
      rcases List.mem_append.mp hr with h1 | h1
      · exact hfresh q (List.mem_cons_of_mem p hq) r h1
      · rw [List.mem_singleton.mp h1]
        show p.1 ≠ q.1
        intro heq
        exact (List.nodup_cons.mp hnd).1 (heq ▸ List.mem_map_of_mem Prod.fst hq)


theorem saveEdgesFold_eq :
    ∀ (l : List ((String × String) × Option String)) (s : Store),
      (l.map Prod.fst).Nodup →
      (∀ p ∈ l, ∀ r ∈ s.edges,
        ¬(r.src = p.1.1 ∧ r.dest = p.1.2 ∧ r.relation = p.2.getD "")) →
      l.foldl (fun s p => insertEdgeRow s (edgeRowOf p)) s =
        ⟨s.nodes, s.edges ++ l.map edgeRowOf⟩ := by
  intro l
  induction l with
  | nil =>
    intro s _ _
    cases s
    simp
  | cons p t ih =>
    intro s hnd hfresh
    have hany : s.edges.any (fun x => decide (x.src = (edgeRowOf p).src ∧
        x.dest = (edgeRowOf p).dest ∧ x.relation = (edgeRowOf p).relation)) = false := by
      rw [List.any_eq_false]
      intro x hx
      simp only [decide_eq_true_eq]
      exact hfresh p (List.mem_cons_self p t) x hx
    have hins : insertEdgeRow s (edgeRowOf p) = ⟨s.nodes, s.edges ++ [edgeRowOf p]⟩ := by
      unfold insertEdgeRow
      rw [hany]
      rfl
    show t.foldl _ (insertEdgeRow s (edgeRowOf p)) = _
    rw [hins, ih ⟨s.nodes, s.edges ++ [edgeRowOf p]⟩ (List.nodup_cons.mp hnd).2 ?fresh]
    · simp
    case fresh =>
      intro q hq r hr
      rcases List.mem_append.mp hr with h1 | h1
      · exact hfresh q (List.mem_cons_of_mem p hq) r h1
      · rw [List.mem_singleton.mp h1]
        show ¬((edgeRowOf p).src = q.1.1 ∧ (edgeRowOf p).dest = q.1.2 ∧ _)
        rintro ⟨h1', h2', _⟩
        have hpair : p.1 = q.1 := Prod.ext h1' h2'
        exact (List.nodup_cons.mp hnd).1 (hpair ▸ List.mem_map_of_mem Prod.fst hq)


theorem save_empty_eq (g : Graph) (hn : (g.nodes.map Prod.fst).Nodup)
    (he : (g.edges.map Prod.fst).Nodup) :
    save_graph_to_db g Store.empty = ⟨g.nodes.map nodeRowOf, g.edges.map edgeRowOf⟩ := by
  unfold save_graph_to_db
  dsimp only
  rw [saveNodesFold_eq g.nodes Store.empty hn
    (fun p _ r hr => absurd hr (List.not_mem_nil r))]
  simp only [Store.empty, List.nil_append]
  rw [saveEdgesFold_eq g.edges ⟨g.nodes.map nodeRowOf, []⟩ he
    (fun p _ r hr => absurd hr (List.not_mem_nil r))]
  simp


theorem loadNodesFold_eq :
    ∀ (rows : List NodeRow) (g : Graph),
      (rows.map (fun r => r.id)).Nodup →
      (∀ r ∈ rows, lookupA g.nodes r.id = none) →
      rows.foldl (fun g r => mergeNode g r.id
          ⟨some r.type, some r.timestamp, some r.author, some r.message⟩) g =
        ⟨g.nodes ++ rows.map (fun r => (r.id,
          (⟨some r.type, some r.timestamp, some r.author, some r.message⟩ : NodeAttrs))),
         g.edges⟩ := by
  intro rows
  induction rows with
  | nil =>
    intro g _ _
    cases g
    simp
  | cons r t ih =>
    intro g hnd habs
    have habs0 : lookupA g.nodes r.id = none := habs r (List.mem_cons_self r t)
    have hm : mergeNode g r.id
        ⟨some r.type, some r.timestamp, some r.author, some r.message⟩ =
        ⟨g.nodes ++ [(r.id,
          (⟨some r.type, some r.timestamp, some r.author, some r.message⟩ : NodeAttrs))],
         g.edges⟩ := by
      unfold mergeNode
      rw [habs0]
      rfl
    have habs2 : ∀ q ∈ t, lookupA (⟨g.nodes ++ [(r.id,
        (⟨some r.type, some r.timestamp, some r.author, some r.message⟩ : NodeAttrs))],
        g.edges⟩ : Graph).nodes q.id = none := by
      intro q hq
      show lookupA (g.nodes ++ [(r.id, _)]) q.id = none
      rw [lookupA_append_single, habs q (List.mem_cons_of_mem r hq)]
      simp only [Option.isSome_none, Bool.false_eq_true, if_false]
      rw [if_neg]
      intro heq
      have hmem : q.id ∈ t.map (fun r => r.id) := List.mem_map_of_mem _ hq
      rw [← heq] at hmem
      exact (List.nodup_cons.mp hnd).1 hmem
    show t.foldl _ (mergeNode g r.id _) = _
    rw [hm, ih _ (List.nodup_cons.mp hnd).2 habs2]
    simp


theorem loadEdgesFold_eq :
    ∀ (rows : List EdgeRow) (g : Graph),
      (rows.map (fun e => (e.src, e.dest))).Nodup →
      (∀ e ∈ rows, lookupA g.edges (e.src, e.dest) = none) →
      (∀ e ∈ rows, (lookupA g.nodes e.src).isSome ∧ (lookupA g.nodes e.dest).isSome) →
      rows.foldl (fun g e => addEdge g e.src e.dest e.relation) g =
        ⟨g.nodes, g.edges ++ rows.map (fun e => ((e.src, e.dest), some e.relation))⟩ := by
  intro rows
  induction rows with
  | nil =>
    intro g _ _ _
    cases g
    simp
  | cons e t ih =>
    intro g hnd habs hend
    have hend0 := hend e (List.mem_cons_self e t)
    have habs0 : lookupA g.edges (e.src, e.dest) = none := habs e (List.mem_cons_self e t)
    have hm : addEdge g e.src e.dest e.relation =
        ⟨g.nodes, g.edges ++ [((e.src, e.dest), some e.relation)]⟩ := by
      unfold addEdge
      dsimp only
      rw [ensureNode_present g e.src hend0.1, ensureNode_present g e.dest hend0.2]
      rw [if_neg (by rw [habs0]; simp)]
    have habs2 : ∀ q ∈ t, lookupA
        (⟨g.nodes, g.edges ++ [((e.src, e.dest), some e.relation)]⟩ : Graph).edges
        (q.src, q.dest) = none := by
      intro q hq
      show lookupA (g.edges ++ [((e.src, e.dest), _)]) (q.src, q.dest) = none
      rw [lookupA_append_single, habs q (List.mem_cons_of_mem e hq)]
      simp only [Option.isSome_none, Bool.false_eq_true, if_false]
      rw [if_neg]
      intro heq
      have hmem : (q.src, q.dest) ∈ t.map (fun e => (e.src, e.dest)) :=
        List.mem_map_of_mem _ hq
      rw [← heq] at hmem
      exact (List.nodup_cons.mp hnd).1 hmem
    have hend2 : ∀ q ∈ t,
        (lookupA (⟨g.nodes, g.edges ++ [((e.src, e.dest), some e.relation)]⟩ : Graph).nodes
          q.src).isSome ∧
        (lookupA (⟨g.nodes, g.edges ++ [((e.src, e.dest), some e.relation)]⟩ : Graph).nodes
          q.dest).isSome := by
      intro q hq
      exact hend q (List.mem_cons_of_mem e hq)
    show t.foldl _ (addEdge g e.src e.dest e.relation) = _
    rw [hm, ih _ (List.nodup_cons.mp hnd).2 habs2 hend2]
    simp


theorem map_nodeRow_id (l : List (String × NodeAttrs)) :
    (l.map nodeRowOf).map (fun r => r.id) = l.map Prod.fst := by
  rw [List.map_map]
  rfl


theorem map_edgeRow_key (l : List ((String × String) × Option String)) :
    (l.map edgeRowOf).map (fun e => (e.src, e.dest)) = l.map Prod.fst := by
  rw [List.map_map]
  rfl


theorem map_loaded_nodes_id (l : List (String × NodeAttrs))
    (h : ∀ p ∈ l, p.2.node_type.isSome ∧ p.2.timestamp.isSome ∧
      p.2.author.isSome ∧ p.2.message.isSome) :
    (l.map nodeRowOf).map (fun r => (r.id,
      (⟨some r.type, some r.timestamp, some r.author, some r.message⟩ : NodeAttrs))) = l := by
  induction l with
  | nil => rfl
  | cons p t ih =>
    have hp := h p (List.mem_cons_self p t)
    have ht : ∀ q ∈ t, q.2.node_type.isSome ∧ q.2.timestamp.isSome ∧
        q.2.author.isSome ∧ q.2.message.isSome :=
      fun q hq => h q (List.mem_cons_of_mem p hq)
    simp only [List.map_cons, List.cons.injEq]
    constructor
    · obtain ⟨k, a⟩ := p
      obtain ⟨x1, h1⟩ := Option.isSome_iff_exists.mp hp.1
      obtain ⟨x2, h2⟩ := Option.isSome_iff_exists.mp hp.2.1
      obtain ⟨x3, h3⟩ := Option.isSome_iff_exists.mp hp.2.2.1
      obtain ⟨x4, h4⟩ := Option.isSome_iff_exists.mp hp.2.2.2
      cases a
      simp_all [nodeRowOf]
    · exact ih ht


theorem map_loaded_edges_key (l : List ((String × String) × Option String))
    (h : ∀ e ∈ l, e.2.isSome) :
    (l.map edgeRowOf).map (fun e => ((e.src, e.dest), some e.relation)) = l := by
  induction l with
  | nil => rfl
  | cons p t ih =>
    simp only [List.map_cons, List.cons.injEq]
    constructor
    · obtain ⟨k, r⟩ := p
      obtain ⟨x, hx⟩ := Option.isSome_iff_exists.mp (h (k, r) (List.mem_cons_self (k, r) t))
      simp_all [edgeRowOf]
    · exact ih (fun q hq => h q (List.mem_cons_of_mem p hq))


/-- C2 counterexample: round-trip persistence does not reproduce attribute
sets exactly — a repository node is saved with empty-string defaults for its
absent attributes and loads back with all four attributes present, unlike the
original, so `load(save(G))` differs from G. -/
theorem claim_C2_counterexample :
    load_graph_from_db (save_graph_to_db (add_repository "r" Graph.empty) Store.empty)
        Graph.empty ≠ add_repository "r" Graph.empty ∧
    lookupA (load_graph_from_db
        (save_graph_to_db (add_repository "r" Graph.empty) Store.empty)
        Graph.empty).nodes "r" =
      some ⟨some "repository", some "", some "", some ""⟩ ∧
    lookupA (add_repository "r" Graph.empty).nodes "r" =
      some ⟨some "repository", none, none, none⟩ := by
  refine ⟨by decide, by decide, by decide⟩


/-- C2 (amended): loading an empty store yields the empty graph, and for
every well-formed graph whose nodes carry all four attributes and whose edges
carry a relation (attributes are otherwise defaulted to the empty string on
save, so absent attributes come back as present empty strings),
`load(save(G))` into an empty graph reconstructs exactly G — same node list
with identical attribute sets and same edge list. -/
theorem claim_C2_round_trip (g : Graph)
    (hn : (g.nodes.map Prod.fst).Nodup)
    (he : (g.edges.map Prod.fst).Nodup)
    (hattrs : ∀ p ∈ g.nodes, p.2.node_type.isSome ∧ p.2.timestamp.isSome ∧
      p.2.author.isSome ∧ p.2.message.isSome)
    (hrel : ∀ e ∈ g.edges, e.2.isSome)
    (hend : ∀ e ∈ g.edges, e.1.1 ∈ g.nodes.map Prod.fst ∧
      e.1.2 ∈ g.nodes.map Prod.fst) :
    load_graph_from_db (save_graph_to_db g Store.empty) Graph.empty = g ∧
    load_graph_from_db Store.empty Graph.empty = Graph.empty := by
  refine ⟨?_, rfl⟩
  have hnodes : (g.nodes.map nodeRowOf).foldl (fun g r => mergeNode g r.id
      ⟨some r.type, some r.timestamp, some r.author, some r.message⟩) Graph.empty =
      ⟨g.nodes, []⟩ := by
    rw [loadNodesFold_eq (g.nodes.map nodeRowOf) Graph.empty
      (by rw [map_nodeRow_id]; exact hn) (fun r _ => rfl)]
    apply graph_ext
    · show [] ++ (g.nodes.map nodeRowOf).map _ = g.nodes
      rw [List.nil_append]
      exact map_loaded_nodes_id g.nodes hattrs
    · rfl
  have hedges : (g.edges.map edgeRowOf).foldl
      (fun g e => addEdge g e.src e.dest e.relation) (⟨g.nodes, []⟩ : Graph) =
      ⟨g.nodes, g.edges⟩ := by
    rw [loadEdgesFold_eq (g.edges.map edgeRowOf) (⟨g.nodes, []⟩ : Graph)
      (by rw [map_edgeRow_key]; exact he) (fun q _ => rfl) ?endp]
    · apply graph_ext
      · rfl
      · show [] ++ (g.edges.map edgeRowOf).map _ = g.edges
        rw [List.nil_append]
        exact map_loaded_edges_key g.edges hrel
    case endp =>
      intro q hq
      obtain ⟨p, hp, hpe⟩ := List.mem_map.mp hq
      have hend2 := hend p hp
      constructor
      · show (lookupA g.nodes q.src).isSome
        rw [lookupA_isSome_iff_mem, ← hpe]
        exact hend2.1
      · show (lookupA g.nodes q.dest).isSome
        rw [lookupA_isSome_iff_mem, ← hpe]
        exact hend2.2
  rw [save_empty_eq g hn he]
  unfold load_graph_from_db
  dsimp only
  rw [hnodes, hedges]


theorem claim_C2_witness :
    load_graph_from_db (save_graph_to_db
        ⟨[("c1", ⟨some "commit", some "1", some "al", some "m"⟩),
          ("r", ⟨some "repository", some "", some "", some ""⟩)],
         [(("r", "c1"), some "has_commit")]⟩ Store.empty) Graph.empty =
      ⟨[("c1", ⟨some "commit", some "1", some "al", some "m"⟩),
        ("r", ⟨some "repository", some "", some "", some ""⟩)],
       [(("r", "c1"), some "has_commit")]⟩ :=
  (claim_C2_round_trip _ (by decide) (by decide) (by decide) (by decide)
    (by decide)).1


theorem find?_cons_eq {α : Type} (p : α → Bool) (a : α) (l : List α) :
    (a :: l).find? p = if p a then some a else l.find? p := by
  cases hpa : p a
  · simp [List.find?, hpa]
  · simp [List.find?, hpa]


theorem find?_append_single {α : Type} (l : List α) (x : α) (p : α → Bool) :
    (l ++ [x]).find? p =
      if (l.find? p).isSome then l.find? p
      else if p x then some x else none := by
  induction l with
  | nil => simp [find?_cons_eq, List.find?_nil]
  | cons y t ih =>
    rw [List.cons_append, find?_cons_eq, find?_cons_eq]
    by_cases hy : p y
    · rw [if_pos hy, if_pos hy]
      simp
    · rw [if_neg hy, if_neg hy, ih]


theorem insertNodeRow_lookup_preserved (s : Store) (r : NodeRow) (id : String)
    (h : (lookupNodeRow s id).isSome) :
    lookupNodeRow (insertNodeRow s r) id = lookupNodeRow s id := by
  unfold insertNodeRow
  split
  · rfl
  · show lookupNodeRow ⟨s.nodes ++ [r], s.edges⟩ id = _
    unfold lookupNodeRow
    rw [find?_append_single]
    have h2 : (List.find? (fun r => decide (r.id = id)) s.nodes).isSome = true := h
    rw [if_pos h2]


theorem saveNodes_lookup_preserved :
    ∀ (l : List (String × NodeAttrs)) (s : Store) (id : String),
      (lookupNodeRow s id).isSome →
      lookupNodeRow (l.foldl (fun s p => insertNodeRow s (nodeRowOf p)) s) id =
        lookupNodeRow s id := by
  intro l
  induction l with
  | nil => intro s id _; rfl
  | cons p t ih =>
    intro s id hs
    have hpres := insertNodeRow_lookup_preserved s (nodeRowOf p) id hs
    show lookupNodeRow (t.foldl _ (insertNodeRow s (nodeRowOf p))) id = _
    rw [ih (insertNodeRow s (nodeRowOf p)) id (by rw [hpres]; exact hs), hpres]


theorem saveEdges_nodes_eq :
    ∀ (l : List ((String × String) × Option String)) (s : Store),
      (l.foldl (fun s p => insertEdgeRow s (edgeRowOf p)) s).nodes = s.nodes := by
  intro l
  induction l with
  | nil => intro s; rfl
  | cons p t ih =>
    intro s
    show (t.foldl _ (insertEdgeRow s (edgeRowOf p))).nodes = _
    rw [ih]
    unfold insertEdgeRow
    split <;> rfl


theorem lookupNodeRow_nodes_only (s1 s2 : Store) (id : String)
    (h : s1.nodes = s2.nodes) : lookupNodeRow s1 id = lookupNodeRow s2 id := by
  unfold lookupNodeRow
  rw [h]


theorem insertNodeRow_mem (s : Store) (r x : NodeRow) (h : x ∈ s.nodes) :
    x ∈ (insertNodeRow s r).nodes := by
  unfold insertNodeRow
  split
  · exact h
  · exact List.mem_append_left _ h


theorem saveNodes_mem :
    ∀ (l : List (String × NodeAttrs)) (s : Store) (x : NodeRow), x ∈ s.nodes →
      x ∈ (l.foldl (fun s p => insertNodeRow s (nodeRowOf p)) s).nodes := by
  intro l
  induction l with
  | nil => intro s x h; exact h
  | cons p t ih =>
    intro s x h
    exact ih (insertNodeRow s (nodeRowOf p)) x (insertNodeRow_mem s (nodeRowOf p) x h)


theorem insertEdgeRow_mem (s : Store) (e x : EdgeRow) (h : x ∈ s.edges) :
    x ∈ (insertEdgeRow s e).edges := by
  unfold insertEdgeRow
  split
  · exact h
  · exact List.mem_append_left _ h


theorem saveEdges_mem :
    ∀ (l : List ((String × String) × Option String)) (s : Store) (x : EdgeRow),
      x ∈ s.edges →
      x ∈ (l.foldl (fun s p => insertEdgeRow s (edgeRowOf p)) s).edges := by
  intro l
  induction l with
  | nil => intro s x h; exact h
  | cons p t ih =>
    intro s x h
    exact ih (insertEdgeRow s (edgeRowOf p)) x (insertEdgeRow_mem s (edgeRowOf p) x h)


theorem saveNodes_edges_eq :
    ∀ (l : List (String × NodeAttrs)) (s : Store),
      (l.foldl (fun s p => insertNodeRow s (nodeRowOf p)) s).edges = s.edges := by
  intro l
  induction l with
  | nil => intro s; rfl
  | cons p t ih =>
    intro s
    show (t.foldl _ (insertNodeRow s (nodeRowOf p))).edges = _
    rw [ih]
    unfold insertNodeRow
    split <;> rfl


theorem nodup_append_single {α : Type} (l : List α) (x : α) (hx : x ∉ l)
    (h : l.Nodup) : (l ++ [x]).Nodup :=
  List.Nodup.append h (List.nodup_singleton x)
    (fun _ hal hak => absurd ((List.mem_singleton.mp hak) ▸ hal) hx)


theorem insertNodeRow_nodup (s : Store) (r : NodeRow)
    (h : (s.nodes.map (fun r => r.id)).Nodup) :
    ((insertNodeRow s r).nodes.map (fun r => r.id)).Nodup := by
  unfold insertNodeRow
  by_cases hany : s.nodes.any (fun x => decide (x.id = r.id))
  · rw [if_pos hany]
    exact h
  · rw [if_neg hany]
    show ((s.nodes ++ [r]).map _).Nodup
    rw [List.map_append]
    apply nodup_append_single _ _ _ h
    intro hmem
    obtain ⟨x, hx, hxid⟩ := List.mem_map.mp hmem
    exact hany (List.any_eq_true.mpr ⟨x, hx, by simp [hxid]⟩)


theorem saveNodes_nodup :
    ∀ (l : List (String × NodeAttrs)) (s : Store),
      (s.nodes.map (fun r => r.id)).Nodup →
      ((l.foldl (fun s p => insertNodeRow s (nodeRowOf p)) s).nodes.map
        (fun r => r.id)).Nodup := by
  intro l
  induction l with
  | nil => intro s h; exact h
  | cons p t ih =>
    intro s h
    exact ih (insertNodeRow s (nodeRowOf p)) (insertNodeRow_nodup s (nodeRowOf p) h)


theorem insertEdgeRow_of_mem (s : Store) (e : EdgeRow) (h : e ∈ s.edges) :
    insertEdgeRow s e = s := by
  have hany : s.edges.any (fun x =>
      decide (x.src = e.src ∧ x.dest = e.dest ∧ x.relation = e.relation)) = true :=
    List.any_eq_true.mpr ⟨e, h, by simp⟩
  unfold insertEdgeRow
  rw [if_pos hany]

theorem insertNodeRow_of_mem (s : Store) (r : NodeRow)
    (h : ∃ r' ∈ s.nodes, r'.id = r.id) : insertNodeRow s r = s := by
  obtain ⟨r', hr', hid⟩ := h
  have hany : s.nodes.any (fun x => decide (x.id = r.id)) = true :=
    List.any_eq_true.mpr ⟨r', hr', by simp [hid]⟩
  unfold insertNodeRow
  rw [if_pos hany]

theorem insertEdgeRow_count (s : Store) (e x : EdgeRow) (hx : x ∈ s.edges) :
    (insertEdgeRow s e).edges.count x = s.edges.count x := by
  unfold insertEdgeRow
  by_cases hany : s.edges.any (fun r =>
      decide (r.src = e.src ∧ r.dest = e.dest ∧ r.relation = e.relation))
  · rw [if_pos hany]
  · rw [if_neg hany]
    show (s.edges ++ [e]).count x = s.edges.count x
    have hne : ¬ x = e := by
      intro heq
      subst heq
      exact hany (List.any_eq_true.mpr ⟨x, hx, by simp⟩)
    rw [List.count_append]
    simp [List.count_cons, hne]

theorem saveEdges_count :
    ∀ (l : List ((String × String) × Option String)) (s : Store) (x : EdgeRow),
      x ∈ s.edges →
      (l.foldl (fun s p => insertEdgeRow s (edgeRowOf p)) s).edges.count x =
        s.edges.count x := by
  intro l
  induction l with
  | nil => intro s x _; rfl
  | cons p t ih =>
    intro s x hx
    show (t.foldl _ (insertEdgeRow s (edgeRowOf p))).edges.count x = _
    rw [ih (insertEdgeRow s (edgeRowOf p)) x (insertEdgeRow_mem s (edgeRowOf p) x hx),
      insertEdgeRow_count s (edgeRowOf p) x hx]

theorem insertEdgeRow_nodup (s : Store) (e : EdgeRow) (h : s.edges.Nodup) :
    (insertEdgeRow s e).edges.Nodup := by
  unfold insertEdgeRow
  by_cases hany : s.edges.any (fun r =>
      decide (r.src = e.src ∧ r.dest = e.dest ∧ r.relation = e.relation))
  · rw [if_pos hany]
    exact h
  · rw [if_neg hany]
    show (s.edges ++ [e]).Nodup
    exact nodup_append_single s.edges e
      (fun hmem => hany (List.any_eq_true.mpr ⟨e, hmem, by simp⟩)) h

theorem saveEdges_nodup :
    ∀ (l : List ((String × String) × Option String)) (s : Store), s.edges.Nodup →
      (l.foldl (fun s p => insertEdgeRow s (edgeRowOf p)) s).edges.Nodup := by
  intro l
  induction l with
  | nil => intro s h; exact h
  | cons p t ih =>
    intro s h
    exact ih (insertEdgeRow s (edgeRowOf p)) (insertEdgeRow_nodup s (edgeRowOf p) h)

/-- C3: saving is INSERT OR IGNORE per primary key ((id) for nodes,
(src, dest, relation) for edges): every node row already present keeps
exactly its persisted values — including a Commit row's timestamp, author
and message, which are never replaced by different in-memory values — every
edge row already present stays present with its multiplicity unchanged (an
EdgeRow is exactly its primary-key triple, so count preservation says a
re-save of a present edge key is a no-op that adds no duplicate row),
no error is raised (save is total), no duplicate node primary key and no
duplicate edge primary key is ever created, and inserting a node or edge
whose primary key is already present leaves the store literally unchanged. -/
theorem claim_C3_store_insert_if_absent (g : Graph) (s : Store) :
    (∀ id, (lookupNodeRow s id).isSome →
      lookupNodeRow (save_graph_to_db g s) id = lookupNodeRow s id) ∧
    (∀ r ∈ s.nodes, r ∈ (save_graph_to_db g s).nodes) ∧
    (∀ e ∈ s.edges, e ∈ (save_graph_to_db g s).edges) ∧
    ((s.nodes.map (fun r => r.id)).Nodup →
      ((save_graph_to_db g s).nodes.map (fun r => r.id)).Nodup) ∧
    (∀ e ∈ s.edges, (save_graph_to_db g s).edges.count e = s.edges.count e) ∧
    (s.edges.Nodup → (save_graph_to_db g s).edges.Nodup) ∧
    (∀ e : EdgeRow, e ∈ s.edges → insertEdgeRow s e = s) ∧
    (∀ r : NodeRow, (∃ r' ∈ s.nodes, r'.id = r.id) → insertNodeRow s r = s) := by
  refine ⟨?_, ?_, ?_, ?_, ?_, ?_, insertEdgeRow_of_mem s, insertNodeRow_of_mem s⟩
  · intro id hs
    unfold save_graph_to_db
    dsimp only
    rw [lookupNodeRow_nodes_only _ _ id (saveEdges_nodes_eq g.edges _)]
    exact saveNodes_lookup_preserved g.nodes s id hs
  · intro r hr
    unfold save_graph_to_db
    dsimp only
    have h1 := saveNodes_mem g.nodes s r hr
    have h2 := saveEdges_nodes_eq g.edges
      (g.nodes.foldl (fun s p => insertNodeRow s (nodeRowOf p)) s)
    rw [h2]
    exact h1
  · intro e he
    unfold save_graph_to_db
    dsimp only
    apply saveEdges_mem
    rw [saveNodes_edges_eq]
    exact he
  · intro h
    unfold save_graph_to_db
    dsimp only
    have h2 := saveEdges_nodes_eq g.edges
      (g.nodes.foldl (fun s p => insertNodeRow s (nodeRowOf p)) s)
    rw [h2]
    exact saveNodes_nodup g.nodes s h
  · intro e he
    unfold save_graph_to_db
    dsimp only
    have h1 : e ∈ (g.nodes.foldl (fun s p => insertNodeRow s (nodeRowOf p)) s).edges := by
      rw [saveNodes_edges_eq]
      exact he
    rw [saveEdges_count g.edges _ e h1, saveNodes_edges_eq]
  · intro h
    unfold save_graph_to_db
    dsimp only
    apply saveEdges_nodup
    rw [saveNodes_edges_eq]
    exact h


theorem claim_C3_witness :
    ((lookupNodeRow ⟨[⟨"c1", "commit", "100", "alice", "orig"⟩], []⟩ "c1").isSome ∧
      lookupNodeRow
          (save_graph_to_db (add_commit "c1" "999" "mallory" "new" Graph.empty)
            ⟨[⟨"c1", "commit", "100", "alice", "orig"⟩], []⟩) "c1" =
        lookupNodeRow ⟨[⟨"c1", "commit", "100", "alice", "orig"⟩], []⟩ "c1") ∧
    ((⟨"r", "c1", "has_commit"⟩ : EdgeRow) ∈
        (⟨[], [⟨"r", "c1", "has_commit"⟩]⟩ : Store).edges ∧
      (save_graph_to_db (addEdge Graph.empty "r" "c1" "has_commit")
          ⟨[], [⟨"r", "c1", "has_commit"⟩]⟩).edges.count ⟨"r", "c1", "has_commit"⟩ =
        (⟨[], [⟨"r", "c1", "has_commit"⟩]⟩ : Store).edges.count
          ⟨"r", "c1", "has_commit"⟩) :=
  ⟨⟨by decide, (claim_C3_store_insert_if_absent
      (add_commit "c1" "999" "mallory" "new" Graph.empty)
      ⟨[⟨"c1", "commit", "100", "alice", "orig"⟩], []⟩).1 "c1" (by decide)⟩,
   ⟨by decide, (claim_C3_store_insert_if_absent
      (addEdge Graph.empty "r" "c1" "has_commit")
      ⟨[], [⟨"r", "c1", "has_commit"⟩]⟩).2.2.2.2.1
      ⟨"r", "c1", "has_commit"⟩ (by decide)⟩⟩


theorem filter_commit_length (nodes : List NodeRow) (d : String)
    (hnd : (nodes.map (fun n => n.id)).Nodup) :
    (nodes.filter (fun n => decide (n.id = d ∧ n.type = NodeType.COMMIT.value))).length =
      if nodes.any (fun n => decide (n.id = d ∧ n.type = NodeType.COMMIT.value))
      then 1 else 0 := by
  induction nodes with
  | nil => rfl
  | cons n t ih =>
    have hnd' := (List.nodup_cons.mp hnd).2
    have hni : n.id ∉ t.map (fun n => n.id) := (List.nodup_cons.mp hnd).1
    by_cases hn : (n.id = d ∧ n.type = NodeType.COMMIT.value)
    · rw [List.filter_cons_of_pos (by simp [hn])]
      have htail : t.filter
          (fun n => decide (n.id = d ∧ n.type = NodeType.COMMIT.value)) = [] := by
        rw [List.filter_eq_nil_iff]
        intro x hx
        simp only [decide_eq_true_eq, not_and]
        intro hxid _
        exact hni (List.mem_map.mpr ⟨x, hx, hxid.trans hn.1.symm⟩)
      rw [htail]
      simp [hn]
    · rw [List.filter_cons_of_neg (by simp [hn])]
      rw [ih hnd', List.any_cons]
      simp [hn]


theorem flatMapFilterCount {α β : Type} (P Q : α → Bool) (f : α → List β)
    (hlen : ∀ a, P a = true → (f a).length = if Q a then 1 else 0) :
    ∀ l : List α,
      ((l.filter P).flatMap f).length = (l.filter (fun a => P a && Q a)).length := by
  intro l
  induction l with
  | nil => rfl
  | cons a t ih =>
    by_cases hp : P a
    · rw [List.filter_cons_of_pos hp, List.flatMap_cons, List.length_append,
        hlen a hp, ih]
      by_cases hq : Q a
      · rw [if_pos hq, List.filter_cons_of_pos (by simp [hp, hq]), List.length_cons]
        omega
      · rw [if_neg hq, List.filter_cons_of_neg (by simp [hp, hq])]
        omega
    · rw [List.filter_cons_of_neg (by simpa using hp),
        List.filter_cons_of_neg (by simp [hp]), ih]


/-- C8: the commits query joins has_commit edges for the given repository id
with commit-typed node rows — it returns an empty list (not an error) when no
matching edge exists, each returned record is the 7-character-truncated
commit id together with the stored timestamp, author and message of a linked
commit node (and every such node yields its record), under unique node ids
it returns exactly one record per linked commit node, and on the concrete
spec store it returns both commits for "owner/name" and nothing for
"nonexistent". -/
theorem claim_C8_query_correctness :
    (∀ (s : Store) (rid : String),
      (∀ e ∈ s.edges, ¬(e.src = rid ∧ e.relation = "has_commit")) →
      get_commits_for_repo rid s = []) ∧
    (∀ (s : Store) (rid : String) (r : CommitRecord),
      r ∈ get_commits_for_repo rid s ↔
        ∃ e ∈ s.edges, (e.src = rid ∧ e.relation = "has_commit") ∧
          ∃ n ∈ s.nodes, (n.id = e.dest ∧ n.type = NodeType.COMMIT.value) ∧
            r = recordOf n) ∧
    (∀ (s : Store) (rid : String), (s.nodes.map (fun n => n.id)).Nodup →
      (get_commits_for_repo rid s).length =
        (s.edges.filter (fun e => decide (e.src = rid ∧ e.relation = "has_commit") &&
          s.nodes.any (fun n =>
            decide (n.id = e.dest ∧ n.type = NodeType.COMMIT.value)))).length) ∧
    (get_commits_for_repo "owner/name"
        ⟨[⟨"owner/name", "repository", "", "", ""⟩,
          ⟨"c1hash_full", "commit", "100", "alice", "first"⟩,
          ⟨"c2hash_full", "commit", "200", "bob", "second"⟩],
         [⟨"owner/name", "c1hash_full", "has_commit"⟩,
          ⟨"owner/name", "c2hash_full", "has_commit"⟩]⟩ =
      [⟨"c1hash_", "100", "alice", "first"⟩, ⟨"c2hash_", "200", "bob", "second"⟩] ∧
    get_commits_for_repo "nonexistent"
        ⟨[⟨"owner/name", "repository", "", "", ""⟩,
          ⟨"c1hash_full", "commit", "100", "alice", "first"⟩,
          ⟨"c2hash_full", "commit", "200", "bob", "second"⟩],
         [⟨"owner/name", "c1hash_full", "has_commit"⟩,
          ⟨"owner/name", "c2hash_full", "has_commit"⟩]⟩ = []) := by
  refine ⟨?_, ?_, ?_, by decide, by decide⟩
  · intro s rid h
    unfold get_commits_for_repo
    have hf : s.edges.filter
        (fun e => decide (e.src = rid ∧ e.relation = "has_commit")) = [] := by
      rw [List.filter_eq_nil_iff]
      intro e he
      simp only [decide_eq_true_eq]
      exact h e he
    rw [hf]
    rfl
  · intro s rid r
    unfold get_commits_for_repo
    simp only [List.mem_flatMap, List.mem_filter, List.mem_map, decide_eq_true_eq]
    constructor
    · rintro ⟨e, ⟨he, hsrc, hrel⟩, n, ⟨hn, hid, hty⟩, hrec⟩
      exact ⟨e, he, ⟨hsrc, hrel⟩, n, hn, ⟨hid, hty⟩, hrec.symm⟩
    · rintro ⟨e, he, ⟨hsrc, hrel⟩, n, hn, ⟨hid, hty⟩, hrec⟩
      exact ⟨e, ⟨he, hsrc, hrel⟩, n, ⟨hn, hid, hty⟩, hrec.symm⟩
  · intro s rid hnd
    unfold get_commits_for_repo
    apply flatMapFilterCount
    intro e _
    rw [List.length_map]
    exact filter_commit_length s.nodes e.dest hnd


theorem claim_C8_witness :
    (∀ e ∈ ([⟨"a", "b", "contains"⟩] : List EdgeRow),
      ¬(e.src = "q" ∧ e.relation = "has_commit")) ∧
    get_commits_for_repo "q" ⟨[], [⟨"a", "b", "contains"⟩]⟩ = [] :=
  ⟨by decide, claim_C8_query_correctness.1 ⟨[], [⟨"a", "b", "contains"⟩]⟩ "q"
    (by decide)⟩


end RepoMiner
